import Mathlib

/-!
# Verification of the pevents event library (POSIX implementation)

This file gives a shallow embedding of the POSIX implementation in
`src/pevents.cpp` (the `#ifndef _WIN32` half plus the WIN32 fallback adapter)
and proves properties of its operations.

Modelling choices:

* The embedding is sequential: each public operation (`SetEvent`, `ResetEvent`,
  `WaitForEvent`, `WaitForMultipleEvents`) runs atomically as a state
  transformer over the shared state.  Under this execution model every mutex
  acquisition succeeds immediately and a condition wait can only end by
  deadline expiry (no other thread runs that could signal), so
  `pthread_cond_timedwait` is modelled as returning `ETIMEDOUT` and
  `pthread_cond_wait` as never returning.  Operations whose C counterpart
  would never return are modelled with an `Option`-valued result code
  (`none` = the call blocks forever).
* `neosmart_wfmo_t_` records (the multi-wait coordinators) are heap allocated
  and shared between the waiting thread and every event registry holding a
  registration, so they live in an explicit heap: an association list from an
  allocation identifier to the record.  `delete` is modelled by erasing the
  entry.  The C `union { int FiredEvent; std::atomic<int> EventsLeft; }` is
  modelled with two separate fields; the code only ever reads the member
  matching `WaitAll` (the final `waitIndex = wfmo->Status.FiredEvent` read in
  the wait-all case is type punning whose value the interface declares
  unspecified).
* `std::deque<neosmart_wfmo_info_t_>` stores registrations by value, so a
  registry is a `List RegWait`.
* The only place where mutex state is observable to the algorithm itself is
  the try-lock cascade of the wait-all atomic-claim step, so events carry a
  `Locked` flag manipulated exactly there; every other acquire/release pair
  brackets a whole atomic step and is elided.
* `SetEvent` additionally returns the list of wait-any coordinators it served
  (allocation id and fired index).  This output is ghost instrumentation: it
  is never consumed by the model itself.
-/

set_option autoImplicit false

namespace PEvents

/-- `WAIT_TIMEOUT` as defined for the POSIX build (`ETIMEDOUT`, 110 on Linux). -/
def WAIT_TIMEOUT : Int := 110

/-- `WAIT_INFINITE = ~0ull`. -/
def WAIT_INFINITE : Nat := 2 ^ 64 - 1

/-- Allocation identifier of a heap-allocated `neosmart_wfmo_t_` record. -/
abbrev WaiterId := Nat

/-- The multi-wait coordinator record `neosmart_wfmo_t_`. -/
structure Wfmo where
  RefCount : Int
  FiredEvent : Int
  EventsLeft : Int
  WaitAll : Bool
  StillWaiting : Bool
  deriving Repr, DecidableEq

/-- A registration record `neosmart_wfmo_info_t_` (stored by value in a
registry). -/
structure RegWait where
  Waiter : WaiterId
  WaitIndex : Int
  Signalled : Bool
  deriving Repr, DecidableEq

/-- The heap of live coordinator records, keyed by allocation id. -/
abbrev Heap := List (WaiterId × Wfmo)

/-- The event structure `neosmart_event_t_`.  `Locked` models whether the
event's `Mutex` is currently held (observable only to the try-lock cascade of
the wait-all claim step). -/
structure Event where
  AutoReset : Bool
  State : Bool
  Locked : Bool
  RegisteredWaits : List RegWait
  deriving Repr, DecidableEq

/-- Dereference a coordinator pointer: first entry with the given id. -/
def findW : Heap → WaiterId → Option Wfmo
  | [], _ => none
  | (k, w) :: t, c => if k = c then some w else findW t c

/-- Overwrite the record behind a coordinator pointer. -/
def setW : Heap → WaiterId → Wfmo → Heap
  | [], _, _ => []
  | (k, w) :: t, c, w' => if k = c then (k, w') :: t else (k, w) :: setW t c w'

/-- `delete` a coordinator record. -/
def eraseW : Heap → WaiterId → Heap
  | [], _ => []
  | (k, w) :: t, c => if k = c then t else (k, w) :: eraseW t c

/-- `RefCount.fetch_sub(1)` followed by `if (ref_count == 1) delete`: the
decrementer that brings the count to zero destroys the record. -/
def decRef (h : Heap) (c : WaiterId) : Heap :=
  match findW h c with
  | none => h
  | some w =>
    if w.RefCount = 1 then eraseW h c
    else setW h c { w with RefCount := w.RefCount - 1 }

/-- `RefCount.fetch_sub(n)` followed by `if (ref_count == n) delete`
(the waiting thread's exit decrement by `1 + skipped_refs`). -/
def decRefBy (h : Heap) (c : WaiterId) (n : Int) : Heap :=
  match findW h c with
  | none => h
  | some w =>
    if w.RefCount = n then eraseW h c
    else setW h c { w with RefCount := w.RefCount - n }

/-- `CreateEvent(manualReset, initialState)` (pevents.cpp:84-99). -/
def CreateEvent (manualReset initialState : Bool) : Event :=
  { AutoReset := !manualReset, State := initialState, Locked := false,
    RegisteredWaits := [] }

/-- `RemoveExpiredWaitHelper` (pevents.cpp:68-81): report whether the
registration's coordinator has stopped waiting and, if so, drop one reference
(destroying the record when the count reaches zero). -/
def RemoveExpiredWaitHelper (h : Heap) (r : RegWait) : Bool × Heap :=
  match findW h r.Waiter with
  | none => (false, h)
  | some w => if w.StillWaiting then (false, h) else (true, decRef h r.Waiter)

/-- `RegisteredWaits.erase(remove_if(..., RemoveExpiredWaitHelper), end)`
(pevents.cpp:257-260 and 416-419): sweep expired registrations front to back.
-/
def sweepRegs : List RegWait → Heap → List RegWait × Heap
  | [], h => ([], h)
  | r :: t, h =>
    let p := RemoveExpiredWaitHelper h r
    let q := sweepRegs t p.2
    (if p.1 then q.1 else r :: q.1, q.2)

/-- The un-signal walk of `UnlockedWaitForEvent` (pevents.cpp:150-159): after
an auto-reset event is drained, take the signal back out of every wait-all
registration that had pre-claimed it. -/
def drainRegs : List RegWait → Heap → List RegWait × Heap
  | [], h => ([], h)
  | r :: t, h =>
    match findW h r.Waiter with
    | none =>
      let q := drainRegs t h
      (r :: q.1, q.2)
    | some w =>
      if r.Signalled && w.WaitAll then
        let h1 := setW h r.Waiter { w with EventsLeft := w.EventsLeft + 1 }
        let q := drainRegs t h1
        ({ r with Signalled := false } :: q.1, q.2)
      else
        let q := drainRegs t h
        (r :: q.1, q.2)

/-- `UnlockedWaitForEvent` (pevents.cpp:101-164), event mutex held.  In a
sequential run nothing else can set `State`, so a timed condition wait always
expires and an untimed one never returns (result code `none`). -/
def UnlockedWaitForEvent (e : Event) (h : Heap) (ms : Nat) :
    Option Int × Event × Heap :=
  if e.State = false then
    if ms = 0 then (some WAIT_TIMEOUT, e, h)
    else if ms = WAIT_INFINITE then (none, e, h)
    else (some WAIT_TIMEOUT, e, h)
  else if e.AutoReset then
    let q := drainRegs e.RegisteredWaits h
    (some 0, { e with State := false, RegisteredWaits := q.1 }, q.2)
  else
    (some 0, e, h)

/-- `WaitForEvent` (pevents.cpp:166-191): the zero-timeout and manual-reset
fast paths, then the locked inner wait.  The double (relaxed then acquire)
load of `State` on the manual fast path reads the same value twice in a
sequential run. -/
def WaitForEvent (e : Event) (h : Heap) (ms : Nat) : Option Int × Event × Heap :=
  if ms = 0 && e.State = false then (some WAIT_TIMEOUT, e, h)
  else if e.AutoReset = false && e.State = true then (some 0, e, h)
  else UnlockedWaitForEvent e h ms

/-- The registry walk of `SetEvent` (pevents.cpp:441-535), event mutex held.
`auto` is `event->AutoReset`.  Returns the walked registry, the heap, the
`consumed` flag, and (ghost instrumentation) the wait-any coordinators served,
in order, as `(allocation id, fired index)` pairs.  The two `StillWaiting`
loads (before and after taking the coordinator mutex) read the same value in
a sequential run. -/
def setLoop (auto : Bool) : List RegWait → Heap →
    List RegWait × Heap × Bool × List (WaiterId × Int)
  | [], h => ([], h, false, [])
  | r :: t, h =>
    match findW h r.Waiter with
    | none =>
      -- dangling coordinator pointer: unreachable in well-formed states
      let q := setLoop auto t h
      (r :: q.1, q.2)
    | some w =>
      if w.StillWaiting = false then
        -- the coordinator already exited: drop our reference, erase the
        -- registration, continue (pevents.cpp:447-455 and 466-480)
        setLoop auto t (decRef h r.Waiter)
      else if r.Signalled then
        -- another branch already counted us (pevents.cpp:482)
        let q := setLoop auto t h
        (r :: q.1, q.2)
      else if w.WaitAll then
        -- claim: fetch_sub on EventsLeft, signal the cvar when it reaches
        -- zero, keep the registration (pevents.cpp:483-492)
        let h1 := setW h r.Waiter { w with EventsLeft := w.EventsLeft - 1 }
        let q := setLoop auto t h1
        ({ r with Signalled := true } :: q.1, q.2)
      else
        -- wait-any: record the fired index, consume the signal when
        -- auto-reset, end the wait, drop our reference, erase the
        -- registration (pevents.cpp:493-527)
        let h1 := setW h r.Waiter
          { w with FiredEvent := r.WaitIndex, StillWaiting := false }
        let h2 := decRef h1 r.Waiter
        if auto then (t, h2, true, [(r.Waiter, r.WaitIndex)])
        else
          let q := setLoop auto t h2
          (q.1, q.2.1, q.2.2.1, (r.Waiter, r.WaitIndex) :: q.2.2.2)

/-- `SetEvent` (pevents.cpp:435-565).  When the single auto-reset signal was
handed to a wait-any coordinator, `State` is left untouched; otherwise it is
stored `true` (and the event cvar signalled or broadcast, which has no
observable effect in the sequential model beyond the state change). -/
def SetEvent (e : Event) (h : Heap) : Event × Heap × List (WaiterId × Int) :=
  let q := setLoop e.AutoReset e.RegisteredWaits h
  if q.2.2.1 then ({ e with RegisteredWaits := q.1 }, q.2.1, q.2.2.2)
  else ({ e with State := true, RegisteredWaits := q.1 }, q.2.1, q.2.2.2)

/-- The registry walk of `ResetEvent` (pevents.cpp:577-605), event mutex held:
erase registrations of exited coordinators, and undo the wait-all claim of
every still-waiting wait-all registration that had pre-claimed this event. -/
def resetLoop : List RegWait → Heap → List RegWait × Heap
  | [], h => ([], h)
  | r :: t, h =>
    match findW h r.Waiter with
    | none =>
      let q := resetLoop t h
      (r :: q.1, q.2)
    | some w =>
      if w.StillWaiting = false then
        resetLoop t (decRef h r.Waiter)
      else if r.Signalled && w.WaitAll then
        let h1 := setW h r.Waiter { w with EventsLeft := w.EventsLeft + 1 }
        let q := resetLoop t h1
        ({ r with Signalled := false } :: q.1, q.2)
      else
        let q := resetLoop t h
        (r :: q.1, q.2)

/-- `ResetEvent` (pevents.cpp:567-612): store `State = false` under the mutex,
then walk the registry. -/
def ResetEvent (e : Event) (h : Heap) : Event × Heap :=
  let q := resetLoop e.RegisteredWaits h
  ({ e with State := false, RegisteredWaits := q.1 }, q.2)

/-- The consume loop of the wait-all claim step (pevents.cpp:360-370): with
all event mutexes held, run the inner wait on each event with a zero timeout
(auto-resets flip to false and drain their registries; manuals stay true),
unlocking each mutex afterwards. -/
def consumeAll : List Event → Heap → List Event × Heap
  | [], h => ([], h)
  | e :: t, h =>
    let p := UnlockedWaitForEvent e h 0
    let q := consumeAll t p.2.2
    ({ p.2.1 with Locked := false } :: q.1, q.2)

/-- The try-lock cascade of the wait-all claim step (pevents.cpp:323-370).
`locked` is the reversed prefix of events whose mutexes we already hold.  A
try-lock that finds the mutex held makes the code release everything and
retry; in a sequential run that retry loop never exits, which we model as
`none`.  Observing `State == false` under the lock releases every acquired
mutex, current one included, and reports `lockedAtomically = false` without
any other change.  Reaching the end of the array consumes every event. -/
def claimScan (h : Heap) : List Event → List Event → Option (Bool × List Event × Heap)
  | locked, [] =>
    let q := consumeAll locked.reverse h
    some (true, q.1, q.2)
  | locked, e :: rest =>
    if e.Locked then none
    else
      let e1 := { e with Locked := true }
      if e1.State = false then
        some (false,
          locked.reverse.map (fun x => { x with Locked := false }) ++
            ({ e1 with Locked := false } :: rest), h)
      else claimScan h (e1 :: locked) rest

/-- The wait-all atomic-claim step (pevents.cpp:319-371): attempt to take all
event mutexes in array order and atomically consume every event. -/
def tryClaimAll (evs : List Event) (h : Heap) : Option (Bool × List Event × Heap) :=
  claimScan h [] evs

/-- The initial coordinator record built by `WaitForMultipleEvents`
(pevents.cpp:202-229).  Only the `Status` union member matching `waitAll` is
initialized by the C code; the other field's model value is arbitrary (we use
the underlying zero or minus-one). -/
def initWfmo (waitAll : Bool) (count : Int) : Wfmo :=
  { RefCount := 1 + count,
    FiredEvent := -1,
    EventsLeft := if waitAll then count else 0,
    WaitAll := waitAll,
    StillWaiting := true }

/-- The registration loop of `WaitForMultipleEvents` (pevents.cpp:237-293).
Arguments: the events not yet visited, the current index `i`, the heap, the
accumulated `skipped_refs` and `events_skipped`, and the `done` flag.
Returns the updated events (in order), heap, `skipped_refs`,
`events_skipped`, and `done`. -/
def regLoop (waitAll : Bool) (wid : WaiterId) (count : Int) :
    List Event → Nat → Heap → Int → Int → Bool →
    List Event × Heap × Int × Int × Bool
  | [], _, h, sr, es, done => ([], h, sr, es, done)
  | e :: t, i, h, sr, es, done =>
    if done then (e :: t, h, sr, es, done)
    else
      -- manual-reset skip-lock fast path, wait-any only (pevents.cpp:242-248);
      -- the relaxed and acquire loads agree in a sequential run
      let skipLock := !waitAll && !e.AutoReset && e.State
      -- sweep expired registrations while we hold the lock (pevents.cpp:257-260)
      let p := if skipLock then (e.RegisteredWaits, h)
               else sweepRegs e.RegisteredWaits h
      let e1 := { e with RegisteredWaits := p.1 }
      let signalled := e1.State
      if skipLock || signalled then
        if waitAll then
          -- count it, then still register below (pevents.cpp:267-268, 284-287)
          let reg : RegWait := { Waiter := wid, WaitIndex := (i : Int),
                                 Signalled := signalled }
          let e2 := { e1 with RegisteredWaits := e1.RegisteredWaits ++ [reg] }
          let q := regLoop waitAll wid count t (i + 1) p.2 sr (es + 1) false
          (e2 :: q.1, q.2)
        else
          -- wait-any completion (pevents.cpp:270-281)
          let sr1 := sr + (count - (i : Int))
          let p2 := if skipLock then (e1, p.2)
                    else ((UnlockedWaitForEvent e1 p.2 0).2.1,
                          (UnlockedWaitForEvent e1 p.2 0).2.2)
          let h3 := match findW p2.2 wid with
                    | some w => setW p2.2 wid { w with FiredEvent := (i : Int) }
                    | none => p2.2
          (p2.1 :: t, h3, sr1, es, true)
      else
        let reg : RegWait := { Waiter := wid, WaitIndex := (i : Int),
                               Signalled := signalled }
        let e2 := { e1 with RegisteredWaits := e1.RegisteredWaits ++ [reg] }
        let q := regLoop waitAll wid count t (i + 1) p.2 sr es false
        (e2 :: q.1, q.2)

/-- The wait loop of `WaitForMultipleEvents` (pevents.cpp:312-387), coordinator
mutex held.  In a sequential run the loop body executes at most once: nothing
external can fire an event or change `EventsLeft` between iterations, and a
timed condition wait expires while an untimed one never returns.  Returns the
result code (`none` = the call never returns), the events and the heap. -/
def wfmoWaitStep (waitAll : Bool) (wid : WaiterId) (ms : Nat)
    (evs : List Event) (h : Heap) (done : Bool) :
    Option Int × List Event × Heap :=
  let timeoutStep : Option Int × List Event × Heap :=
    if ms = 0 then (some WAIT_TIMEOUT, evs, h)
    else if ms = WAIT_INFINITE then (none, evs, h)
    else (some WAIT_TIMEOUT, evs, h)
  if done then (some 0, evs, h)
  else if !waitAll then
    -- Status.FiredEvent is still -1: nothing fired during registration
    timeoutStep
  else if (findW h wid).elim false (fun w => w.EventsLeft = 0) then
    match tryClaimAll evs h with
    | none => (none, evs, h)
    | some (true, evs', h') => (some 0, evs', h')
    | some (false, evs', h') =>
      if ms = 0 then (some WAIT_TIMEOUT, evs', h')
      else if ms = WAIT_INFINITE then (none, evs', h')
      else (some WAIT_TIMEOUT, evs', h')
  else timeoutStep

/-- `WaitForMultipleEvents` (pevents.cpp:200-407) as a sequential state
transformer.  `wid` is the allocation identifier handed to the freshly
allocated coordinator.  Returns `none` when the call never returns, otherwise
`some (result, waitIndex, events, heap)`. -/
def WaitForMultipleEvents (evs : List Event) (waitAll : Bool) (ms : Nat)
    (h : Heap) (wid : WaiterId) : Option (Int × Int × List Event × Heap) :=
  let count : Int := (evs.length : Int)
  let h0 : Heap := (wid, initWfmo waitAll count) :: h
  let q := regLoop waitAll wid count evs 0 h0 0 0 false
  let evs1 := q.1
  let sr := q.2.2.1
  let es := q.2.2.2.1
  let done := q.2.2.2.2
  -- apply events_skipped in one go (pevents.cpp:295-298)
  let h2 := if waitAll then
      match findW q.2.1 wid with
      | some w => setW q.2.1 wid { w with EventsLeft := w.EventsLeft - es }
      | none => q.2.1
    else q.2.1
  let step := wfmoWaitStep waitAll wid ms evs1 h2 done
  match step.1 with
  | none => none
  | some result =>
    let evs2 := step.2.1
    let h3 := step.2.2
    -- waitIndex = wfmo->Status.FiredEvent (pevents.cpp:389)
    let fired := (findW h3 wid).elim (-1) (fun w => w.FiredEvent)
    -- StillWaiting = false, then drop 1 + skipped_refs references
    -- (pevents.cpp:393-404)
    let h4 := match findW h3 wid with
              | some w => setW h3 wid { w with StillWaiting := false }
              | none => h3
    let h5 := decRefBy h4 wid (1 + sr)
    some (result, fired, evs2, h5)

/-! ## The WIN32 fallback adapter (pevents.cpp:636-733)

The host waits are abstracted by `host : Nat → Nat`, giving the result of the
`k`-th `WaitForSingleObject` / `WaitForMultipleObjects` call, and `lastError`
abstracts `GetLastError()`.  `win32Core` also returns the list of 32-bit
timeout arguments passed to the host, in order. -/

/-- `WAIT_OBJECT_0` on WIN32. -/
def WIN32_WAIT_OBJECT_0 : Nat := 0

/-- `WAIT_ABANDONED` / `WAIT_ABANDONED_0` on WIN32 (0x80). -/
def WIN32_WAIT_ABANDONED : Nat := 128

/-- `WAIT_TIMEOUT` on WIN32 (0x102). -/
def WIN32_WAIT_TIMEOUT : Nat := 258

/-- `WAIT_FAILED` on WIN32 (0xFFFFFFFF). -/
def WIN32_WAIT_FAILED : Nat := 4294967295

/-- `static_cast<uint32_t>(WAIT_INFINITE) - 1` (pevents.cpp:660, 710). -/
def win32WaitUnit : Nat := 4294967294

/-- The chunking loop `while (result == WAIT_TIMEOUT && rounds-- != 0)`
(pevents.cpp:665-667, 715-717): `n` rounds remain, the next host call is the
`k`-th, `result` is the last host result, `log` the timeouts passed so far. -/
def win32Rounds (host : Nat → Nat) : Nat → Nat → Nat → List Nat → Nat × List Nat
  | 0, _, result, log => (result, log)
  | n + 1, k, result, log =>
    if result = WIN32_WAIT_TIMEOUT then
      win32Rounds host n (k + 1) (host k) (log ++ [win32WaitUnit])
    else (result, log)

/-- The shared 64-bit-to-32-bit timeout mapping of both adapter waits
(pevents.cpp:655-668, 704-718): a single host call when the timeout is the
infinite sentinel or fits in 32 bits, otherwise one call with
`milliseconds % waitUnit` followed by up to `milliseconds / waitUnit` calls
of `waitUnit` each, while the host keeps timing out. -/
def win32Core (host : Nat → Nat) (ms : Nat) : Nat × List Nat :=
  if ms = WAIT_INFINITE ∨ ms / 2 ^ 32 = 0 then (host 0, [ms % 2 ^ 32])
  else
    win32Rounds host (ms / win32WaitUnit) 1 (host 0) [ms % win32WaitUnit]

/-- The 32-bit timeouts the adapter passes to the host. -/
def win32Durations (host : Nat → Nat) (ms : Nat) : List Nat :=
  (win32Core host ms).2

/-- The WIN32 `WaitForEvent` (pevents.cpp:651-680): normalize
`WAIT_OBJECT_0` and `WAIT_ABANDONED` to success, keep `WAIT_TIMEOUT`,
surface anything else as `GetLastError()`. -/
def win32WaitForEvent (host : Nat → Nat) (lastError : Nat) (ms : Nat) : Nat :=
  let result := (win32Core host ms).1
  if result = WIN32_WAIT_OBJECT_0 ∨ result = WIN32_WAIT_ABANDONED then 0
  else if result = WIN32_WAIT_TIMEOUT then WIN32_WAIT_TIMEOUT
  else lastError

/-- The WIN32 `WaitForMultipleEvents` (pevents.cpp:699-732): results in
`[WAIT_OBJECT_0, WAIT_OBJECT_0 + count)` and
`[WAIT_ABANDONED_0, WAIT_ABANDONED_0 + count)` both succeed with the
corresponding index (`none` = the by-reference index is left unassigned). -/
def win32WaitForMultipleEvents (host : Nat → Nat) (lastError : Nat)
    (count : Nat) (ms : Nat) : Nat × Option Nat :=
  let result := (win32Core host ms).1
  if WIN32_WAIT_OBJECT_0 ≤ result ∧ result < WIN32_WAIT_OBJECT_0 + count then
    (0, some (result - WIN32_WAIT_OBJECT_0))
  else if WIN32_WAIT_ABANDONED ≤ result ∧ result < WIN32_WAIT_ABANDONED + count then
    (0, some (result - WIN32_WAIT_ABANDONED))
  else if result = WIN32_WAIT_FAILED then (lastError, none)
  else (result, none)

/-- Number of registrations of coordinator `c` in one registry. -/
def cntW (t : List RegWait) (c : WaiterId) : Nat :=
  t.countP (fun r => r.Waiter = c)

/-- Number of registrations of coordinator `c` across all events. -/
def regsOf (evs : List Event) (c : WaiterId) : Nat :=
  (evs.map (fun e => cntW e.RegisteredWaits c)).sum

/-- The reference count behind a coordinator pointer, when the record is
still alive. -/
def rcOf (h : Heap) (c : WaiterId) : Option Int :=
  (findW h c).map (fun w => w.RefCount)

/-- The reference-count invariant: heap keys are unique (each allocation is
one record); every live coordinator's `RefCount` equals its outstanding
registrations plus its waiter's pending share, and is strictly positive;
a destroyed (absent) coordinator has no registrations and no pending share;
pending shares are nonnegative. -/
def RefAcct (h : Heap) (evs : List Event) (p : WaiterId → Int) : Prop :=
  (h.map Prod.fst).Nodup ∧
  (∀ c w, findW h c = some w →
    w.RefCount = (regsOf evs c : Int) + p c ∧ 0 < w.RefCount) ∧
  (∀ c, findW h c = none → regsOf evs c = 0 ∧ p c = 0) ∧
  (∀ c, 0 ≤ p c)

/-! ## Heap lemmas -/

theorem findW_setW_self {h : Heap} {c : WaiterId} {w w' : Wfmo}
    (hf : findW h c = some w) : findW (setW h c w') c = some w' := by
  induction h with
  | nil => simp [findW] at hf
  | cons p t ih =>
    obtain ⟨k, v⟩ := p
    by_cases hk : k = c
    · simp [setW, findW, hk]
    · simp only [findW, hk, if_false] at hf
      simp [setW, findW, hk, ih hf]

theorem findW_setW_ne {h : Heap} {c c' : WaiterId} {w' : Wfmo} (hne : c' ≠ c) :
    findW (setW h c w') c' = findW h c' := by
  induction h with
  | nil => simp [setW]
  | cons p t ih =>
    obtain ⟨k, v⟩ := p
    by_cases hk : k = c
    · subst hk
      have hkc : ¬(k = c') := fun hh => hne hh.symm
      simp [setW, findW, hkc]
    · simp [setW, findW, hk, ih]

theorem findW_eraseW_ne {h : Heap} {c c' : WaiterId} (hne : c' ≠ c) :
    findW (eraseW h c) c' = findW h c' := by
  induction h with
  | nil => simp [eraseW]
  | cons p t ih =>
    obtain ⟨k, v⟩ := p
    by_cases hk : k = c
    · subst hk
      have hkc : ¬(k = c') := fun hh => hne hh.symm
      simp [eraseW, findW, hkc]
    · simp [eraseW, findW, hk, ih]

theorem findW_decRef_ne {h : Heap} {c c' : WaiterId} (hne : c' ≠ c) :
    findW (decRef h c) c' = findW h c' := by
  unfold decRef
  cases hf : findW h c with
  | none => rfl
  | some w =>
    by_cases h1 : w.RefCount = 1 <;>
      simp [h1, findW_eraseW_ne hne, findW_setW_ne hne]

theorem setW_setW {h : Heap} {c : WaiterId} {w1 w2 : Wfmo} :
    setW (setW h c w1) c w2 = setW h c w2 := by
  induction h with
  | nil => rfl
  | cons p t ih =>
    obtain ⟨k, v⟩ := p
    by_cases hk : k = c <;> simp [setW, hk, ih]

theorem setW_self {h : Heap} {c : WaiterId} {w : Wfmo}
    (hf : findW h c = some w) : setW h c w = h := by
  induction h with
  | nil => rfl
  | cons p t ih =>
    obtain ⟨k, v⟩ := p
    by_cases hk : k = c
    · simp only [findW, hk, if_true] at hf
      cases hf
      simp [setW, hk]
    · simp only [findW, hk, if_false] at hf
      simp [setW, hk, ih hf]

theorem decRef_of_ge_two {h : Heap} {c : WaiterId} {w : Wfmo}
    (hf : findW h c = some w) (h2 : 2 ≤ w.RefCount) :
    decRef h c = setW h c { w with RefCount := w.RefCount - 1 } := by
  have : w.RefCount ≠ 1 := by omega
  simp [decRef, hf, this]

/-! ## Single-event wait: initial state round trips -/

/-- **C7**: for either reset mode, a zero-timeout wait on a freshly created
event returns 0 when the initial state is true and `WAIT_TIMEOUT` when it is
false; after the successful zero-timeout wait, a second zero-timeout wait
returns `WAIT_TIMEOUT` for an auto-reset event (the signal was drained) and 0
for a manual-reset event (the signal is sticky). -/
theorem initial_state_roundtrip (mr : Bool) (h : Heap) :
    (WaitForEvent (CreateEvent mr false) h 0).1 = some WAIT_TIMEOUT ∧
    (WaitForEvent (CreateEvent mr true) h 0).1 = some 0 ∧
    ((WaitForEvent (WaitForEvent (CreateEvent mr true) h 0).2.1
        (WaitForEvent (CreateEvent mr true) h 0).2.2 0).1 =
      if mr then some 0 else some WAIT_TIMEOUT) := by
  cases mr <;>
    simp [WaitForEvent, UnlockedWaitForEvent, CreateEvent, drainRegs]

/-! ## The WIN32 adapter: timeout chunking and abandoned-wait mapping -/

theorem win32Rounds_timeout (n : Nat) : ∀ (k : Nat) (log : List Nat),
    win32Rounds (fun _ => WIN32_WAIT_TIMEOUT) n k WIN32_WAIT_TIMEOUT log =
      (WIN32_WAIT_TIMEOUT, log ++ List.replicate n win32WaitUnit) := by
  induction n with
  | zero => intro k log; simp [win32Rounds]
  | succ n ih =>
    intro k log
    rw [win32Rounds, if_pos rfl, ih]
    simp [List.replicate_succ]

/-- **C9**: for a 64-bit timeout that is neither the infinite sentinel nor
representable in 32 bits, both adapter waits decompose it as
`milliseconds = rounds * waitUnit + remainder` with
`waitUnit = 2^32 - 2`; the 32-bit chunk durations passed to the host sum to
exactly the requested timeout and none of them equals the host's 32-bit
infinite value `0xFFFFFFFF`; and a host result of `WAIT_ABANDONED` (or
`WAIT_ABANDONED_0 + i` for `WaitForMultipleEvents`, with the Win32 cap of at
most 64 ≤ 128 handles) is returned as 0. -/
theorem win32_timeout_chunking (ms : Nat) (hms : ms ≠ WAIT_INFINITE)
    (hbig : 2 ^ 32 ≤ ms) :
    win32WaitUnit = 2 ^ 32 - 2 ∧
    ms % win32WaitUnit + ms / win32WaitUnit * win32WaitUnit = ms ∧
    (win32Durations (fun _ => WIN32_WAIT_TIMEOUT) ms =
      ms % win32WaitUnit :: List.replicate (ms / win32WaitUnit) win32WaitUnit) ∧
    (ms % win32WaitUnit :: List.replicate (ms / win32WaitUnit) win32WaitUnit).sum
      = ms ∧
    (∀ d ∈ ms % win32WaitUnit ::
        List.replicate (ms / win32WaitUnit) win32WaitUnit, d ≠ 4294967295) ∧
    (∀ (host : Nat → Nat) (lastError : Nat),
      (win32Core host ms).1 = WIN32_WAIT_ABANDONED →
      win32WaitForEvent host lastError ms = 0) ∧
    (∀ (host : Nat → Nat) (lastError count i : Nat), count ≤ 128 → i < count →
      (win32Core host ms).1 = WIN32_WAIT_ABANDONED + i →
      win32WaitForMultipleEvents host lastError count ms = (0, some i)) := by
  have hdiv : ¬(ms = WAIT_INFINITE ∨ ms / 2 ^ 32 = 0) := by
    rintro (hc | hc)
    · exact hms hc
    · have := Nat.div_eq_zero_iff (by norm_num : 0 < 2 ^ 32) |>.mp hc
      omega
  have hrem : ms % win32WaitUnit < win32WaitUnit :=
    Nat.mod_lt _ (by norm_num [win32WaitUnit])
  refine ⟨by norm_num [win32WaitUnit], Nat.mod_add_div' ms win32WaitUnit,
    ?_, ?_, ?_, ?_, ?_⟩
  · simp only [win32Durations, win32Core, hdiv, if_false]
    rw [win32Rounds_timeout]
    simp
  · simp [List.sum_replicate, smul_eq_mul, Nat.mod_add_div' ms win32WaitUnit]
  · intro d hd
    rcases List.mem_cons.mp hd with hd | hd
    · subst hd
      have : win32WaitUnit = 4294967294 := rfl
      omega
    · rw [List.eq_of_mem_replicate hd]
      norm_num [win32WaitUnit]
  · intro host lastError hres
    simp [win32WaitForEvent, hres, WIN32_WAIT_ABANDONED, WIN32_WAIT_OBJECT_0]
  · intro host lastError count i hcap hcount hres
    have h1 : ¬(WIN32_WAIT_OBJECT_0 ≤ WIN32_WAIT_ABANDONED + i ∧
        WIN32_WAIT_ABANDONED + i < WIN32_WAIT_OBJECT_0 + count) := by
      simp only [WIN32_WAIT_OBJECT_0, WIN32_WAIT_ABANDONED]
      omega
    have h2 : WIN32_WAIT_ABANDONED ≤ WIN32_WAIT_ABANDONED + i ∧
        WIN32_WAIT_ABANDONED + i < WIN32_WAIT_ABANDONED + count := by
      simp only [WIN32_WAIT_ABANDONED]
      omega
    simp [win32WaitForMultipleEvents, hres, h1, h2]

/-- Witness for `win32_timeout_chunking` at `milliseconds = 2^32` (rounds = 1,
remainder = 2) with an abandoning host. -/
theorem win32_timeout_chunking_witness :
    (2 ^ 32 ≠ WAIT_INFINITE ∧ 2 ^ 32 ≤ 2 ^ 32) ∧
    ((2 : Nat) ^ 32 % win32WaitUnit +
      2 ^ 32 / win32WaitUnit * win32WaitUnit = 2 ^ 32 ∧
     win32WaitForEvent (fun _ => WIN32_WAIT_ABANDONED) 0 (2 ^ 32) = 0) :=
  ⟨⟨by decide, le_refl _⟩,
   (win32_timeout_chunking (2 ^ 32) (by decide) (le_refl _)).2.1,
   (win32_timeout_chunking (2 ^ 32) (by decide) (le_refl _)).2.2.2.2.2.1
     (fun _ => WIN32_WAIT_ABANDONED) 0 (by decide)⟩

/-! ## ResetEvent never touches wait-any registrations -/

theorem resetLoop_preserve_key (t : List RegWait) :
    ∀ (h : Heap) (c : WaiterId) (w : Wfmo), findW h c = some w →
      w.StillWaiting = true → w.WaitAll = false →
      findW (resetLoop t h).2 c = some w := by
  induction t with
  | nil => intro h c w hf _ _; simpa [resetLoop] using hf
  | cons r t ih =>
    intro h c w hf hsw hwa
    rw [resetLoop]
    cases hr : findW h r.Waiter with
    | none => exact ih h c w hf hsw hwa
    | some w0 =>
      by_cases hsw0 : w0.StillWaiting = false
      · have hne : r.Waiter ≠ c := by
          intro hc; rw [hc, hf] at hr; cases hr
          rw [hsw] at hsw0; cases hsw0
        simp only [hsw0, if_true]
        exact ih _ c w (by rw [findW_decRef_ne (Ne.symm hne)]; exact hf) hsw hwa
      · simp only [hsw0, if_false]
        by_cases hsig : (r.Signalled && w0.WaitAll) = true
        · have hne : r.Waiter ≠ c := by
            intro hc; rw [hc, hf] at hr; cases hr
            rcases Bool.and_eq_true_iff.mp hsig with ⟨_, hw⟩
            rw [hwa] at hw; cases hw
          simp only [hsig, if_true]
          exact ih _ c w (by rw [findW_setW_ne (Ne.symm hne)]; exact hf) hsw hwa
        · simp only [hsig, if_false]
          exact ih h c w hf hsw hwa

theorem resetLoop_keeps_reg (t : List RegWait) :
    ∀ (h : Heap) (r : RegWait), r ∈ t → ∀ w, findW h r.Waiter = some w →
      w.StillWaiting = true → w.WaitAll = false → r ∈ (resetLoop t h).1 := by
  induction t with
  | nil => intro h r hr; cases hr
  | cons r0 t ih =>
    intro h r hr w hf hsw hwa
    rw [resetLoop]
    rcases List.mem_cons.mp hr with rfl | hrt
    · -- the registration itself: the walk keeps it unchanged
      rw [hf]
      have h1 : ¬(w.StillWaiting = false) := by simp [hsw]
      have h2 : ¬((r.Signalled && w.WaitAll) = true) := by simp [hwa]
      simp [h1, h2]
    · cases hr0 : findW h r0.Waiter with
      | none => exact List.mem_cons_of_mem _ (ih h r hrt w hf hsw hwa)
      | some w0 =>
        by_cases hsw0 : w0.StillWaiting = false
        · have hne : r0.Waiter ≠ r.Waiter := by
            intro hc; rw [hc, hf] at hr0; cases hr0
            rw [hsw] at hsw0; cases hsw0
          simp only [hsw0, if_true]
          exact ih _ r hrt w (by rw [findW_decRef_ne (Ne.symm hne)]; exact hf)
            hsw hwa
        · simp only [hsw0, if_false]
          by_cases hsig : (r0.Signalled && w0.WaitAll) = true
          · have hne : r0.Waiter ≠ r.Waiter := by
              intro hc; rw [hc, hf] at hr0; cases hr0
              rcases Bool.and_eq_true_iff.mp hsig with ⟨_, hw⟩
              rw [hwa] at hw; cases hw
            simp only [hsig, if_true]
            exact List.mem_cons_of_mem _
              (ih _ r hrt w (by rw [findW_setW_ne (Ne.symm hne)]; exact hf)
                hsw hwa)
          · simp only [hsig, if_false]
            exact List.mem_cons_of_mem _ (ih h r hrt w hf hsw hwa)

/-- **C10**: `ResetEvent` never modifies a wait-any registration or its
coordinator: every registration whose coordinator is still waiting with
`WaitAll = false` survives the walk unchanged (in particular its `Signalled`
flag), and its coordinator's record — `FiredEvent`, `StillWaiting`,
`RefCount`, all of it — is exactly what it was before the call. -/
theorem resetEvent_wait_any_frame (e : Event) (h : Heap) :
    ∀ r ∈ e.RegisteredWaits, ∀ w, findW h r.Waiter = some w →
      w.StillWaiting = true → w.WaitAll = false →
      r ∈ (ResetEvent e h).1.RegisteredWaits ∧
      findW (ResetEvent e h).2 r.Waiter = some w := by
  intro r hr w hf hsw hwa
  exact ⟨resetLoop_keeps_reg _ _ _ hr _ hf hsw hwa,
    resetLoop_preserve_key _ _ _ _ hf hsw hwa⟩

/-- Witness for `resetEvent_wait_any_frame`: a still-waiting wait-any
coordinator (id 3, `FiredEvent = 4`, `RefCount = 2`) registered on a signaled
manual-reset event survives a `ResetEvent` untouched. -/
theorem resetEvent_wait_any_frame_witness :
    ((⟨3, 0, true⟩ : RegWait) ∈
        (⟨true, true, false, [⟨3, 0, true⟩]⟩ : Event).RegisteredWaits ∧
      findW [(3, ⟨2, 4, 0, false, true⟩)] 3 = some ⟨2, 4, 0, false, true⟩) ∧
    ((⟨3, 0, true⟩ : RegWait) ∈
        (ResetEvent ⟨true, true, false, [⟨3, 0, true⟩]⟩
          [(3, ⟨2, 4, 0, false, true⟩)]).1.RegisteredWaits ∧
      findW (ResetEvent ⟨true, true, false, [⟨3, 0, true⟩]⟩
          [(3, ⟨2, 4, 0, false, true⟩)]).2 3 = some ⟨2, 4, 0, false, true⟩) :=
  ⟨⟨by decide, by decide⟩,
    resetEvent_wait_any_frame ⟨true, true, false, [⟨3, 0, true⟩]⟩
      [(3, ⟨2, 4, 0, false, true⟩)] ⟨3, 0, true⟩ (by decide)
      ⟨2, 4, 0, false, true⟩ (by decide) (by decide) (by decide)⟩

/-! ## The symmetric undo of wait-all claims -/

theorem drainRegs_frame (t : List RegWait) :
    ∀ (h : Heap) (c : WaiterId), c ∉ t.map (·.Waiter) →
      findW (drainRegs t h).2 c = findW h c := by
  induction t with
  | nil => intro h c _; rfl
  | cons r0 t ih =>
    intro h c hc
    have hne : r0.Waiter ≠ c := by
      intro hh; exact hc (by simp [hh.symm])
    have hct : c ∉ t.map (·.Waiter) := fun hh => hc (List.mem_cons_of_mem _ hh)
    rw [drainRegs]
    cases hr0 : findW h r0.Waiter with
    | none => exact ih h c hct
    | some w0 =>
      by_cases hsig : (r0.Signalled && w0.WaitAll) = true
      · simp only [hsig, if_true]
        rw [ih _ c hct, findW_setW_ne (Ne.symm hne)]
      · simp only [hsig, if_false]
        exact ih h c hct

theorem drainRegs_pointwise (t : List RegWait)
    (hnd : (t.map (·.Waiter)).Nodup) :
    ∀ (h : Heap), ∀ r ∈ t, r.Signalled = true → ∀ w,
      findW h r.Waiter = some w → w.WaitAll = true →
      { r with Signalled := false } ∈ (drainRegs t h).1 ∧
      findW (drainRegs t h).2 r.Waiter =
        some { w with EventsLeft := w.EventsLeft + 1 } := by
  induction t with
  | nil => intro h r hr; cases hr
  | cons r0 t ih =>
    intro h r hr hsig w hf hwa
    have hnd0 : r0.Waiter ∉ t.map (·.Waiter) := (List.nodup_cons.mp hnd).1
    have hndt : (t.map (·.Waiter)).Nodup := (List.nodup_cons.mp hnd).2
    rw [drainRegs]
    rcases List.mem_cons.mp hr with rfl | hrt
    · rw [hf]
      dsimp only
      rw [if_pos (by rw [hsig, hwa]; rfl)]
      constructor
      · exact List.mem_cons_self _ _
      · rw [drainRegs_frame _ _ _ hnd0, findW_setW_self hf]
    · have hne : r0.Waiter ≠ r.Waiter := by
        intro hh; exact hnd0 (hh ▸ List.mem_map_of_mem (·.Waiter) hrt)
      cases hr0 : findW h r0.Waiter with
      | none =>
        obtain ⟨h1, h2⟩ := ih hndt h r hrt hsig w hf hwa
        exact ⟨List.mem_cons_of_mem _ h1, h2⟩
      | some w0 =>
        dsimp only
        by_cases hs0 : (r0.Signalled && w0.WaitAll) = true
        · rw [if_pos hs0]
          have hf1 : findW
              (setW h r0.Waiter { w0 with EventsLeft := w0.EventsLeft + 1 })
              r.Waiter = some w := by
            rw [findW_setW_ne (Ne.symm hne)]; exact hf
          obtain ⟨h1, h2⟩ := ih hndt _ r hrt hsig w hf1 hwa
          exact ⟨List.mem_cons_of_mem _ h1, h2⟩
        · rw [if_neg hs0]
          obtain ⟨h1, h2⟩ := ih hndt h r hrt hsig w hf hwa
          exact ⟨List.mem_cons_of_mem _ h1, h2⟩

theorem resetLoop_frame (t : List RegWait) :
    ∀ (h : Heap) (c : WaiterId), c ∉ t.map (·.Waiter) →
      findW (resetLoop t h).2 c = findW h c := by
  induction t with
  | nil => intro h c _; rfl
  | cons r0 t ih =>
    intro h c hc
    have hne : r0.Waiter ≠ c := by
      intro hh; exact hc (by simp [hh.symm])
    have hct : c ∉ t.map (·.Waiter) := fun hh => hc (List.mem_cons_of_mem _ hh)
    rw [resetLoop]
    cases hr0 : findW h r0.Waiter with
    | none => exact ih h c hct
    | some w0 =>
      dsimp only
      by_cases hsw0 : w0.StillWaiting = false
      · rw [if_pos hsw0, ih _ c hct, findW_decRef_ne (Ne.symm hne)]
      · rw [if_neg hsw0]
        by_cases hsig : (r0.Signalled && w0.WaitAll) = true
        · rw [if_pos hsig]
          rw [ih _ c hct, findW_setW_ne (Ne.symm hne)]
        · rw [if_neg hsig]
          exact ih h c hct

theorem resetLoop_pointwise (t : List RegWait)
    (hnd : (t.map (·.Waiter)).Nodup) :
    ∀ (h : Heap), ∀ r ∈ t, r.Signalled = true → ∀ w,
      findW h r.Waiter = some w → w.StillWaiting = true → w.WaitAll = true →
      { r with Signalled := false } ∈ (resetLoop t h).1 ∧
      findW (resetLoop t h).2 r.Waiter =
        some { w with EventsLeft := w.EventsLeft + 1 } := by
  induction t with
  | nil => intro h r hr; cases hr
  | cons r0 t ih =>
    intro h r hr hsig w hf hsw hwa
    have hnd0 : r0.Waiter ∉ t.map (·.Waiter) := (List.nodup_cons.mp hnd).1
    have hndt : (t.map (·.Waiter)).Nodup := (List.nodup_cons.mp hnd).2
    rw [resetLoop]
    rcases List.mem_cons.mp hr with rfl | hrt
    · rw [hf]
      dsimp only
      rw [if_neg (by rw [hsw]; exact fun hc => Bool.noConfusion hc)]
      rw [if_pos (by rw [hsig, hwa]; rfl)]
      constructor
      · exact List.mem_cons_self _ _
      · rw [resetLoop_frame _ _ _ hnd0, findW_setW_self hf]
    · have hne : r0.Waiter ≠ r.Waiter := by
        intro hh; exact hnd0 (hh ▸ List.mem_map_of_mem (·.Waiter) hrt)
      cases hr0 : findW h r0.Waiter with
      | none =>
        obtain ⟨h1, h2⟩ := ih hndt h r hrt hsig w hf hsw hwa
        exact ⟨List.mem_cons_of_mem _ h1, h2⟩
      | some w0 =>
        dsimp only
        by_cases hsw0 : w0.StillWaiting = false
        · rw [if_pos hsw0]
          have hf1 : findW (decRef h r0.Waiter) r.Waiter = some w := by
            rw [findW_decRef_ne (Ne.symm hne)]; exact hf
          exact ih hndt _ r hrt hsig w hf1 hsw hwa
        · rw [if_neg hsw0]
          by_cases hs0 : (r0.Signalled && w0.WaitAll) = true
          · rw [if_pos hs0]
            have hf1 : findW
                (setW h r0.Waiter { w0 with EventsLeft := w0.EventsLeft + 1 })
                r.Waiter = some w := by
              rw [findW_setW_ne (Ne.symm hne)]; exact hf
            obtain ⟨h1, h2⟩ := ih hndt _ r hrt hsig w hf1 hsw hwa
            exact ⟨List.mem_cons_of_mem _ h1, h2⟩
          · rw [if_neg hs0]
            obtain ⟨h1, h2⟩ := ih hndt h r hrt hsig w hf hsw hwa
            exact ⟨List.mem_cons_of_mem _ h1, h2⟩

/-- A `SetEvent` on an event whose only registration belongs to a
still-waiting wait-all coordinator performs exactly one claim: the
registration's `Signalled` flag is set, the coordinator's `EventsLeft` is
decremented, the state is stored true, and nothing is consumed. -/
theorem setEvent_claim_singleton (e : Event) (h : Heap) (r : RegWait) (w : Wfmo)
    (hreg : e.RegisteredWaits = [r]) (hsig : r.Signalled = false)
    (hf : findW h r.Waiter = some w) (hsw : w.StillWaiting = true)
    (hwa : w.WaitAll = true) :
    SetEvent e h =
      ({ e with State := true, RegisteredWaits := [{ r with Signalled := true }] },
       setW h r.Waiter { w with EventsLeft := w.EventsLeft - 1 }, []) := by
  have h1 : ¬(w.StillWaiting = false) := by simp [hsw]
  simp [SetEvent, hreg, setLoop, hf, h1, hsig, hwa]

theorem resetLoop_claim_singleton (h1 : Heap) (r' : RegWait) (w1 : Wfmo)
    (hf1 : findW h1 r'.Waiter = some w1) (hsw1 : w1.StillWaiting = true)
    (hsig1 : r'.Signalled = true) (hwa1 : w1.WaitAll = true) :
    resetLoop [r'] h1 =
      ([{ r' with Signalled := false }],
       setW h1 r'.Waiter { w1 with EventsLeft := w1.EventsLeft + 1 }) := by
  have hx : ¬(w1.StillWaiting = false) := by simp [hsw1]
  simp [resetLoop, hf1, hx, hsig1, hwa1]

theorem drainRegs_claim_singleton (h1 : Heap) (r' : RegWait) (w1 : Wfmo)
    (hf1 : findW h1 r'.Waiter = some w1)
    (hsig1 : r'.Signalled = true) (hwa1 : w1.WaitAll = true) :
    drainRegs [r'] h1 =
      ([{ r' with Signalled := false }],
       setW h1 r'.Waiter { w1 with EventsLeft := w1.EventsLeft + 1 }) := by
  simp [drainRegs, hf1, hsig1, hwa1]

/-- **C6**: both `ResetEvent` and the auto-reset drain of a successful wait
store `State = false` and, for every registration of a still-waiting wait-all
coordinator whose `signalled_for_this_wait` flag is set, clear that flag and
increment the coordinator's `events_left` by one (stated pointwise for
registries with one registration per coordinator); consequently a `SetEvent`
claim followed by `ResetEvent`, or followed by another caller draining the
auto-reset event with a zero-timeout wait, restores both the registration and
the coordinator exactly to their pre-`SetEvent` values. -/
theorem reset_and_drain_undo_claims :
    (∀ (e : Event) (h : Heap), (ResetEvent e h).1.State = false) ∧
    (∀ (e : Event) (h : Heap), e.AutoReset = true → e.State = true →
      (UnlockedWaitForEvent e h 0).1 = some 0 ∧
      (UnlockedWaitForEvent e h 0).2.1.State = false) ∧
    (∀ (e : Event) (h : Heap),
      ((e.RegisteredWaits.map (·.Waiter)).Nodup) →
      ∀ r ∈ e.RegisteredWaits, r.Signalled = true → ∀ w,
        findW h r.Waiter = some w → w.StillWaiting = true → w.WaitAll = true →
        { r with Signalled := false } ∈ (ResetEvent e h).1.RegisteredWaits ∧
        findW (ResetEvent e h).2 r.Waiter =
          some { w with EventsLeft := w.EventsLeft + 1 }) ∧
    (∀ (e : Event) (h : Heap), e.AutoReset = true → e.State = true →
      ((e.RegisteredWaits.map (·.Waiter)).Nodup) →
      ∀ r ∈ e.RegisteredWaits, r.Signalled = true → ∀ w,
        findW h r.Waiter = some w → w.StillWaiting = true → w.WaitAll = true →
        { r with Signalled := false } ∈
          (UnlockedWaitForEvent e h 0).2.1.RegisteredWaits ∧
        findW (UnlockedWaitForEvent e h 0).2.2 r.Waiter =
          some { w with EventsLeft := w.EventsLeft + 1 }) ∧
    (∀ (e : Event) (h : Heap) (r : RegWait) (w : Wfmo),
      e.RegisteredWaits = [r] → r.Signalled = false →
      findW h r.Waiter = some w → w.StillWaiting = true → w.WaitAll = true →
      ResetEvent (SetEvent e h).1 (SetEvent e h).2.1 =
        ({ e with State := false }, h)) ∧
    (∀ (e : Event) (h : Heap) (r : RegWait) (w : Wfmo),
      e.RegisteredWaits = [r] → r.Signalled = false →
      findW h r.Waiter = some w → w.StillWaiting = true → w.WaitAll = true →
      e.AutoReset = true → e.State = false →
      WaitForEvent (SetEvent e h).1 (SetEvent e h).2.1 0 = (some 0, e, h)) := by
  have hstate_reset : ∀ (e : Event) (h : Heap), (ResetEvent e h).1.State = false := by
    intro e h; rfl
  have hdrain0 : ∀ (e : Event) (h : Heap), e.AutoReset = true → e.State = true →
      (UnlockedWaitForEvent e h 0).1 = some 0 ∧
      (UnlockedWaitForEvent e h 0).2.1.State = false ∧
      (UnlockedWaitForEvent e h 0).2.1.RegisteredWaits =
        (drainRegs e.RegisteredWaits h).1 ∧
      (UnlockedWaitForEvent e h 0).2.2 = (drainRegs e.RegisteredWaits h).2 := by
    intro e h hauto hstate
    simp [UnlockedWaitForEvent, hstate, hauto]
  refine ⟨hstate_reset, ?_, ?_, ?_, ?_, ?_⟩
  · intro e h hauto hstate
    exact ⟨(hdrain0 e h hauto hstate).1, (hdrain0 e h hauto hstate).2.1⟩
  · intro e h hnd r hr hsig w hf hsw hwa
    exact resetLoop_pointwise _ hnd h r hr hsig w hf hsw hwa
  · intro e h hauto hstate hnd r hr hsig w hf hsw hwa
    rw [(hdrain0 e h hauto hstate).2.2.1, (hdrain0 e h hauto hstate).2.2.2]
    exact drainRegs_pointwise _ hnd h r hr hsig w hf hwa
  · intro e h r w hreg hsig hf hsw hwa
    rw [setEvent_claim_singleton e h r w hreg hsig hf hsw hwa]
    have hf1 : findW (setW h r.Waiter { w with EventsLeft := w.EventsLeft - 1 })
        r.Waiter = some { w with EventsLeft := w.EventsLeft - 1 } :=
      findW_setW_self hf
    have hrestore :
        ({ w with EventsLeft := w.EventsLeft - 1 + 1 } : Wfmo) = w := by
      have hel : w.EventsLeft - 1 + 1 = w.EventsLeft := by ring
      rw [hel]
    have hreg' : ({ r with Signalled := false } : RegWait) = r := by
      obtain ⟨a, b, c⟩ := r
      simp only at hsig
      rw [hsig]
    simp only [ResetEvent]
    rw [resetLoop_claim_singleton
      (setW h r.Waiter { w with EventsLeft := w.EventsLeft - 1 })
      { r with Signalled := true } { w with EventsLeft := w.EventsLeft - 1 }
      hf1 hsw rfl hwa]
    rw [setW_setW]
    dsimp only
    rw [hrestore, setW_self hf, hreg']
    simp [hreg]
  · intro e h r w hreg hsig hf hsw hwa hauto hstate
    rw [setEvent_claim_singleton e h r w hreg hsig hf hsw hwa]
    have hf1 : findW (setW h r.Waiter { w with EventsLeft := w.EventsLeft - 1 })
        r.Waiter = some { w with EventsLeft := w.EventsLeft - 1 } :=
      findW_setW_self hf
    have hrestore :
        ({ w with EventsLeft := w.EventsLeft - 1 + 1 } : Wfmo) = w := by
      have hel : w.EventsLeft - 1 + 1 = w.EventsLeft := by ring
      rw [hel]
    have hreg' : ({ r with Signalled := false } : RegWait) = r := by
      obtain ⟨a, b, c⟩ := r
      simp only at hsig
      rw [hsig]
    rw [WaitForEvent]
    rw [if_neg (by simp), if_neg (by simp [hauto])]
    rw [UnlockedWaitForEvent]
    rw [if_neg (by simp), if_pos (by simp [hauto])]
    dsimp only
    rw [drainRegs_claim_singleton
      (setW h r.Waiter { w with EventsLeft := w.EventsLeft - 1 })
      { r with Signalled := true } { w with EventsLeft := w.EventsLeft - 1 }
      hf1 rfl hwa]
    rw [setW_setW]
    dsimp only
    rw [hrestore, setW_self hf, hreg']
    obtain ⟨ea, es, el, er⟩ := e
    simp only at hreg hauto hstate
    simp [hreg, hauto, hstate]

/-- Witness for `reset_and_drain_undo_claims`, exercising the
claim-then-reset and claim-then-drain round trips on a concrete auto-reset
event with one wait-all registration (`EventsLeft = 2` before and after). -/
theorem reset_and_drain_undo_claims_witness :
    ((⟨true, false, false, [⟨5, 0, false⟩]⟩ : Event).RegisteredWaits =
        [⟨5, 0, false⟩] ∧
      findW [(5, ⟨3, -1, 2, true, true⟩)] 5 = some ⟨3, -1, 2, true, true⟩) ∧
    ResetEvent
        (SetEvent ⟨true, false, false, [⟨5, 0, false⟩]⟩
          [(5, ⟨3, -1, 2, true, true⟩)]).1
        (SetEvent ⟨true, false, false, [⟨5, 0, false⟩]⟩
          [(5, ⟨3, -1, 2, true, true⟩)]).2.1 =
      ({ (⟨true, false, false, [⟨5, 0, false⟩]⟩ : Event) with State := false },
       [(5, ⟨3, -1, 2, true, true⟩)]) ∧
    WaitForEvent
        (SetEvent ⟨true, false, false, [⟨5, 0, false⟩]⟩
          [(5, ⟨3, -1, 2, true, true⟩)]).1
        (SetEvent ⟨true, false, false, [⟨5, 0, false⟩]⟩
          [(5, ⟨3, -1, 2, true, true⟩)]).2.1 0 =
      (some 0, ⟨true, false, false, [⟨5, 0, false⟩]⟩,
        [(5, ⟨3, -1, 2, true, true⟩)]) :=
  ⟨⟨rfl, by decide⟩,
    reset_and_drain_undo_claims.2.2.2.2.1 ⟨true, false, false, [⟨5, 0, false⟩]⟩
      [(5, ⟨3, -1, 2, true, true⟩)] ⟨5, 0, false⟩ ⟨3, -1, 2, true, true⟩
      rfl rfl (by decide) rfl rfl,
    reset_and_drain_undo_claims.2.2.2.2.2 ⟨true, false, false, [⟨5, 0, false⟩]⟩
      [(5, ⟨3, -1, 2, true, true⟩)] ⟨5, 0, false⟩ ⟨3, -1, 2, true, true⟩
      rfl rfl (by decide) rfl rfl rfl rfl⟩

/-! ## SetEvent: the registry walk -/

theorem setLoop_frame (auto : Bool) (t : List RegWait) :
    ∀ (h : Heap) (c : WaiterId), c ∉ t.map (·.Waiter) →
      findW (setLoop auto t h).2.1 c = findW h c := by
  induction t with
  | nil => intro h c _; rfl
  | cons r0 t ih =>
    intro h c hc
    have hne : r0.Waiter ≠ c := by
      intro hh; exact hc (by simp [hh.symm])
    have hct : c ∉ t.map (·.Waiter) := fun hh => hc (List.mem_cons_of_mem _ hh)
    rw [setLoop]
    cases hr0 : findW h r0.Waiter with
    | none => exact ih h c hct
    | some w0 =>
      dsimp only
      by_cases hsw0 : w0.StillWaiting = false
      · rw [if_pos hsw0, ih _ c hct, findW_decRef_ne (Ne.symm hne)]
      · rw [if_neg hsw0]
        by_cases hs0 : r0.Signalled = true
        · rw [if_pos hs0]
          exact ih h c hct
        · rw [if_neg hs0]
          by_cases hwa0 : w0.WaitAll = true
          · rw [if_pos hwa0, ih _ c hct, findW_setW_ne (Ne.symm hne)]
          · rw [if_neg hwa0]
            cases auto with
            | true =>
              rw [if_pos rfl]
              dsimp only
              rw [findW_decRef_ne (Ne.symm hne), findW_setW_ne (Ne.symm hne)]
            | false =>
              rw [if_neg (by simp)]
              rw [ih _ c hct, findW_decRef_ne (Ne.symm hne),
                findW_setW_ne (Ne.symm hne)]

theorem setLoop_manual_not_consumed (t : List RegWait) :
    ∀ (h : Heap), (setLoop false t h).2.2.1 = false := by
  induction t with
  | nil => intro h; rfl
  | cons r0 t ih =>
    intro h
    rw [setLoop]
    cases hr0 : findW h r0.Waiter with
    | none => exact ih h
    | some w0 =>
      dsimp only
      by_cases hsw0 : w0.StillWaiting = false
      · rw [if_pos hsw0]; exact ih _
      · rw [if_neg hsw0]
        by_cases hs0 : r0.Signalled = true
        · rw [if_pos hs0]; exact ih h
        · rw [if_neg hs0]
          by_cases hwa0 : w0.WaitAll = true
          · rw [if_pos hwa0]; exact ih _
          · rw [if_neg hwa0, if_neg (by simp)]
            exact ih _

theorem setLoop_auto_served_length (t : List RegWait) :
    ∀ (h : Heap), (setLoop true t h).2.2.2.length ≤ 1 := by
  induction t with
  | nil => intro h; simp [setLoop]
  | cons r0 t ih =>
    intro h
    rw [setLoop]
    cases hr0 : findW h r0.Waiter with
    | none => exact ih h
    | some w0 =>
      dsimp only
      by_cases hsw0 : w0.StillWaiting = false
      · rw [if_pos hsw0]; exact ih _
      · rw [if_neg hsw0]
        by_cases hs0 : r0.Signalled = true
        · rw [if_pos hs0]; exact ih h
        · rw [if_neg hs0]
          by_cases hwa0 : w0.WaitAll = true
          · rw [if_pos hwa0]; exact ih _
          · rw [if_neg hwa0, if_pos rfl]
            simp

theorem setLoop_auto_not_consumed_served (t : List RegWait) :
    ∀ (h : Heap), (setLoop true t h).2.2.1 = false →
      (setLoop true t h).2.2.2 = [] := by
  induction t with
  | nil => intro h _; rfl
  | cons r0 t ih =>
    intro h
    rw [setLoop]
    cases hr0 : findW h r0.Waiter with
    | none => exact ih h
    | some w0 =>
      dsimp only
      by_cases hsw0 : w0.StillWaiting = false
      · rw [if_pos hsw0]; exact ih _
      · rw [if_neg hsw0]
        by_cases hs0 : r0.Signalled = true
        · rw [if_pos hs0]; exact ih h
        · rw [if_neg hs0]
          by_cases hwa0 : w0.WaitAll = true
          · rw [if_pos hwa0]; exact ih _
          · rw [if_neg hwa0, if_pos rfl]
            intro hc
            exact absurd hc (by simp)

theorem setLoop_serves_pointwise (t : List RegWait)
    (hnd : (t.map (·.Waiter)).Nodup) :
    ∀ (h : Heap), ∀ r ∈ t, ∀ w, findW h r.Waiter = some w →
      w.StillWaiting = true → 2 ≤ w.RefCount → r.Signalled = false →
      (w.WaitAll = false →
        findW (setLoop false t h).2.1 r.Waiter =
          some { w with
                  FiredEvent := r.WaitIndex
                  StillWaiting := false
                  RefCount := w.RefCount - 1 }) ∧
      (w.WaitAll = true →
        { r with Signalled := true } ∈ (setLoop false t h).1 ∧
        findW (setLoop false t h).2.1 r.Waiter =
          some { w with EventsLeft := w.EventsLeft - 1 }) := by
  induction t with
  | nil => intro h r hr; cases hr
  | cons r0 t ih =>
    intro h r hr w hf hsw hrc hsig
    have hnd0 : r0.Waiter ∉ t.map (·.Waiter) := (List.nodup_cons.mp hnd).1
    have hndt : (t.map (·.Waiter)).Nodup := (List.nodup_cons.mp hnd).2
    rw [setLoop]
    rcases List.mem_cons.mp hr with rfl | hrt
    · -- the walk reaches this registration with the coordinator untouched
      rw [hf]
      dsimp only
      rw [if_neg (by rw [hsw]; exact fun hc => Bool.noConfusion hc)]
      rw [if_neg (by rw [hsig]; exact fun hc => Bool.noConfusion hc)]
      cases hwa : w.WaitAll with
      | true =>
        rw [if_pos rfl]
        refine ⟨fun hc => Bool.noConfusion hc, fun _ => ?_⟩
        constructor
        · exact List.mem_cons_self _ _
        · rw [setLoop_frame false t _ _ hnd0, findW_setW_self hf]
      | false =>
        rw [if_neg (by simp), if_neg (by simp)]
        refine ⟨fun _ => ?_, fun hc => Bool.noConfusion hc⟩
        have hf1 : findW (setW h r.Waiter
            { w with FiredEvent := r.WaitIndex, StillWaiting := false })
            r.Waiter =
            some { w with FiredEvent := r.WaitIndex, StillWaiting := false } :=
          findW_setW_self hf
        rw [hwa] at hf1
        rw [setLoop_frame false t _ _ hnd0,
          decRef_of_ge_two hf1 (by exact hrc), setW_setW, findW_setW_self hf]
    · have hne : r0.Waiter ≠ r.Waiter := by
        intro hh; exact hnd0 (hh ▸ List.mem_map_of_mem (·.Waiter) hrt)
      cases hr0 : findW h r0.Waiter with
      | none =>
        dsimp only
        obtain ⟨h1, h2⟩ := ih hndt h r hrt w hf hsw hrc hsig
        exact ⟨h1, fun hx => ⟨List.mem_cons_of_mem _ (h2 hx).1, (h2 hx).2⟩⟩
      | some w0 =>
        dsimp only
        by_cases hsw0 : w0.StillWaiting = false
        · rw [if_pos hsw0]
          have hf1 : findW (decRef h r0.Waiter) r.Waiter = some w := by
            rw [findW_decRef_ne (Ne.symm hne)]; exact hf
          exact ih hndt _ r hrt w hf1 hsw hrc hsig
        · rw [if_neg hsw0]
          by_cases hs0 : r0.Signalled = true
          · rw [if_pos hs0]
            obtain ⟨h1, h2⟩ := ih hndt h r hrt w hf hsw hrc hsig
            exact ⟨h1, fun hx => ⟨List.mem_cons_of_mem _ (h2 hx).1, (h2 hx).2⟩⟩
          · rw [if_neg hs0]
            by_cases hwa0 : w0.WaitAll = true
            · rw [if_pos hwa0]
              have hf1 : findW (setW h r0.Waiter
                  { w0 with EventsLeft := w0.EventsLeft - 1 })
                  r.Waiter = some w := by
                rw [findW_setW_ne (Ne.symm hne)]; exact hf
              obtain ⟨h1, h2⟩ := ih hndt _ r hrt w hf1 hsw hrc hsig
              exact ⟨h1, fun hx => ⟨List.mem_cons_of_mem _ (h2 hx).1, (h2 hx).2⟩⟩
            · rw [if_neg hwa0, if_neg (by simp)]
              have hf1 : findW (decRef (setW h r0.Waiter
                  { w0 with FiredEvent := r0.WaitIndex, StillWaiting := false })
                  r0.Waiter) r.Waiter = some w := by
                rw [findW_decRef_ne (Ne.symm hne),
                  findW_setW_ne (Ne.symm hne)]
                exact hf
              exact ih hndt _ r hrt w hf1 hsw hrc hsig

/-- A signaled manual-reset event satisfies every single wait, for any
timeout, without changing any state. -/
theorem waitForEvent_manual_set (e : Event) (h : Heap) (ms : Nat)
    (hm : e.AutoReset = false) (hs : e.State = true) :
    WaitForEvent e h ms = (some 0, e, h) := by
  simp [WaitForEvent, hm, hs]

/-- **C5**: after `SetEvent` on a manual-reset event the walk never stops
early: the event's state is true afterwards (so every subsequent single wait
succeeds until `ResetEvent`), every still-waiting wait-any coordinator
registered on the event has its `FiredEvent` recorded (and `StillWaiting`
cleared, reference dropped), and every still-waiting wait-all registration
not yet claimed is claimed: its `Signalled` flag is set and its coordinator's
`EventsLeft` decremented.  Stated for registries with one registration per
coordinator, as produced by waits over distinct events. -/
theorem setEvent_manual_broadcast (e : Event) (h : Heap)
    (hman : e.AutoReset = false)
    (hnd : (e.RegisteredWaits.map (·.Waiter)).Nodup) :
    (SetEvent e h).1.State = true ∧
    (∀ (h2 : Heap) (ms : Nat),
      WaitForEvent (SetEvent e h).1 h2 ms = (some 0, (SetEvent e h).1, h2)) ∧
    (∀ r ∈ e.RegisteredWaits, ∀ w, findW h r.Waiter = some w →
      w.StillWaiting = true → 2 ≤ w.RefCount → r.Signalled = false →
      (w.WaitAll = false →
        findW (SetEvent e h).2.1 r.Waiter =
          some { w with
                  FiredEvent := r.WaitIndex
                  StillWaiting := false
                  RefCount := w.RefCount - 1 }) ∧
      (w.WaitAll = true →
        { r with Signalled := true } ∈ (SetEvent e h).1.RegisteredWaits ∧
        findW (SetEvent e h).2.1 r.Waiter =
          some { w with EventsLeft := w.EventsLeft - 1 })) := by
  have hq : (setLoop false e.RegisteredWaits h).2.2.1 = false :=
    setLoop_manual_not_consumed _ _
  have hSE : SetEvent e h =
      ({ e with
          State := true
          RegisteredWaits := (setLoop false e.RegisteredWaits h).1 },
        (setLoop false e.RegisteredWaits h).2.1,
        (setLoop false e.RegisteredWaits h).2.2.2) := by
    simp [SetEvent, hman, hq]
  rw [hSE]
  refine ⟨rfl, fun h2 ms => waitForEvent_manual_set _ h2 ms hman rfl, ?_⟩
  intro r hr w hf hsw hrc hsig
  exact setLoop_serves_pointwise e.RegisteredWaits hnd h r hr w hf hsw hrc hsig

/-- Witness for `setEvent_manual_broadcast`: a manual-reset event carrying a
wait-any registration (coordinator 10) and a wait-all registration
(coordinator 11, `EventsLeft = 1`); the `SetEvent` serves the wait-any
coordinator, claims the wait-all one, and leaves the state set. -/
theorem setEvent_manual_broadcast_witness :
    ((⟨false, false, false, [⟨10, 0, false⟩, ⟨11, 1, false⟩]⟩ :
        Event).AutoReset = false ∧
      ((([⟨10, 0, false⟩, ⟨11, 1, false⟩] : List RegWait).map
        (·.Waiter)).Nodup) ∧
      findW [(10, ⟨2, -1, 0, false, true⟩), (11, ⟨2, -1, 1, true, true⟩)] 10 =
        some ⟨2, -1, 0, false, true⟩ ∧
      findW [(10, ⟨2, -1, 0, false, true⟩), (11, ⟨2, -1, 1, true, true⟩)] 11 =
        some ⟨2, -1, 1, true, true⟩) ∧
    ((SetEvent ⟨false, false, false, [⟨10, 0, false⟩, ⟨11, 1, false⟩]⟩
        [(10, ⟨2, -1, 0, false, true⟩), (11, ⟨2, -1, 1, true, true⟩)]).1.State
        = true ∧
    findW (SetEvent ⟨false, false, false, [⟨10, 0, false⟩, ⟨11, 1, false⟩]⟩
        [(10, ⟨2, -1, 0, false, true⟩), (11, ⟨2, -1, 1, true, true⟩)]).2.1 10 =
      some ⟨1, 0, 0, false, false⟩ ∧
    (⟨11, 1, true⟩ : RegWait) ∈
      (SetEvent ⟨false, false, false, [⟨10, 0, false⟩, ⟨11, 1, false⟩]⟩
        [(10, ⟨2, -1, 0, false, true⟩),
          (11, ⟨2, -1, 1, true, true⟩)]).1.RegisteredWaits ∧
    findW (SetEvent ⟨false, false, false, [⟨10, 0, false⟩, ⟨11, 1, false⟩]⟩
        [(10, ⟨2, -1, 0, false, true⟩), (11, ⟨2, -1, 1, true, true⟩)]).2.1 11 =
      some ⟨2, -1, 0, true, true⟩) :=
  ⟨⟨rfl, by decide, by decide, by decide⟩,
    (setEvent_manual_broadcast _ _ rfl (by decide)).1,
    ((setEvent_manual_broadcast _ _ rfl (by decide)).2.2 ⟨10, 0, false⟩
      (by decide) ⟨2, -1, 0, false, true⟩ (by decide) rfl (by decide) rfl).1
      rfl,
    (((setEvent_manual_broadcast _ _ rfl (by decide)).2.2 ⟨11, 1, false⟩
      (by decide) ⟨2, -1, 1, true, true⟩ (by decide) rfl (by decide) rfl).2
      rfl).1,
    (((setEvent_manual_broadcast _ _ rfl (by decide)).2.2 ⟨11, 1, false⟩
      (by decide) ⟨2, -1, 1, true, true⟩ (by decide) rfl (by decide) rfl).2
      rfl).2⟩

theorem setLoop_auto_spec (t : List RegWait)
    (hnd : (t.map (·.Waiter)).Nodup) :
    ∀ (h : Heap),
      (∀ r ∈ t, ∀ w, findW h r.Waiter = some w → w.StillWaiting = true →
        2 ≤ w.RefCount) →
      ((setLoop true t h).2.2.1 = false ∧ (setLoop true t h).2.2.2 = []) ∨
      (∃ r w, r ∈ t ∧ (setLoop true t h).2.2.1 = true ∧
        (setLoop true t h).2.2.2 = [(r.Waiter, r.WaitIndex)] ∧
        findW h r.Waiter = some w ∧ w.StillWaiting = true ∧
        w.WaitAll = false ∧ r.Signalled = false ∧
        findW (setLoop true t h).2.1 r.Waiter =
          some { w with
                  FiredEvent := r.WaitIndex
                  StillWaiting := false
                  RefCount := w.RefCount - 1 } ∧
        (∀ r2 ∈ (setLoop true t h).1, r2.Waiter ≠ r.Waiter)) := by
  induction t with
  | nil => intro h _; left; exact ⟨rfl, rfl⟩
  | cons r0 t ih =>
    intro h hwf
    have hnd0 : r0.Waiter ∉ t.map (·.Waiter) := (List.nodup_cons.mp hnd).1
    have hndt : (t.map (·.Waiter)).Nodup := (List.nodup_cons.mp hnd).2
    have hwft : ∀ r ∈ t, ∀ w, findW h r.Waiter = some w →
        w.StillWaiting = true → 2 ≤ w.RefCount :=
      fun r hr => hwf r (List.mem_cons_of_mem _ hr)
    rw [setLoop]
    cases hr0 : findW h r0.Waiter with
    | none =>
      dsimp only
      rcases ih hndt h hwft with hl | ⟨r, w, hr, hc, hs, hfr, hsw, hwa, hsg, hfa, hout⟩
      · exact Or.inl hl
      · refine Or.inr ⟨r, w, List.mem_cons_of_mem _ hr, hc, hs, hfr, hsw, hwa,
          hsg, hfa, ?_⟩
        intro r2 hr2
        rcases List.mem_cons.mp hr2 with rfl | hr2t
        · intro hh; rw [hh, hfr] at hr0; cases hr0
        · exact hout r2 hr2t
    | some w0 =>
      dsimp only
      by_cases hsw0 : w0.StillWaiting = false
      · rw [if_pos hsw0]
        have hwf1 : ∀ r ∈ t, ∀ w, findW (decRef h r0.Waiter) r.Waiter = some w →
            w.StillWaiting = true → 2 ≤ w.RefCount := by
          intro r hr w hfw
          have hne : r0.Waiter ≠ r.Waiter := by
            intro hh; exact hnd0 (hh ▸ List.mem_map_of_mem (·.Waiter) hr)
          rw [findW_decRef_ne (Ne.symm hne)] at hfw
          exact hwft r hr w hfw
        rcases ih hndt _ hwf1 with hl | ⟨r, w, hr, hc, hs, hfr, hsw, hwa, hsg, hfa, hout⟩
        · exact Or.inl hl
        · have hne : r0.Waiter ≠ r.Waiter := by
            intro hh; exact hnd0 (hh ▸ List.mem_map_of_mem (·.Waiter) hr)
          rw [findW_decRef_ne (Ne.symm hne)] at hfr
          exact Or.inr ⟨r, w, List.mem_cons_of_mem _ hr, hc, hs, hfr, hsw, hwa,
            hsg, hfa, hout⟩
      · rw [if_neg hsw0]
        by_cases hs0 : r0.Signalled = true
        · rw [if_pos hs0]
          rcases ih hndt h hwft with hl | ⟨r, w, hr, hc, hs, hfr, hsw, hwa, hsg, hfa, hout⟩
          · exact Or.inl hl
          · have hne : r0.Waiter ≠ r.Waiter := by
              intro hh; exact hnd0 (hh ▸ List.mem_map_of_mem (·.Waiter) hr)
            refine Or.inr ⟨r, w, List.mem_cons_of_mem _ hr, hc, hs, hfr, hsw,
              hwa, hsg, hfa, ?_⟩
            intro r2 hr2
            rcases List.mem_cons.mp hr2 with rfl | hr2t
            · exact hne
            · exact hout r2 hr2t
        · rw [if_neg hs0]
          by_cases hwa0 : w0.WaitAll = true
          · rw [if_pos hwa0]
            have hwf1 : ∀ r ∈ t, ∀ w,
                findW (setW h r0.Waiter
                  { w0 with EventsLeft := w0.EventsLeft - 1 }) r.Waiter =
                  some w → w.StillWaiting = true → 2 ≤ w.RefCount := by
              intro r hr w hfw
              have hne : r0.Waiter ≠ r.Waiter := by
                intro hh; exact hnd0 (hh ▸ List.mem_map_of_mem (·.Waiter) hr)
              rw [findW_setW_ne (Ne.symm hne)] at hfw
              exact hwft r hr w hfw
            rcases ih hndt _ hwf1 with hl | ⟨r, w, hr, hc, hs, hfr, hsw, hwa, hsg, hfa, hout⟩
            · exact Or.inl hl
            · have hne : r0.Waiter ≠ r.Waiter := by
                intro hh; exact hnd0 (hh ▸ List.mem_map_of_mem (·.Waiter) hr)
              rw [findW_setW_ne (Ne.symm hne)] at hfr
              refine Or.inr ⟨r, w, List.mem_cons_of_mem _ hr, hc, hs, hfr, hsw,
                hwa, hsg, hfa, ?_⟩
              intro r2 hr2
              rcases List.mem_cons.mp hr2 with rfl | hr2t
              · exact hne
              · exact hout r2 hr2t
          · rw [if_neg hwa0, if_pos rfl]
            -- the wait-any serve: the walk stops here
            have hsw0t : w0.StillWaiting = true := by
              cases hx : w0.StillWaiting with
              | false => exact absurd hx hsw0
              | true => rfl
            have hrc : 2 ≤ w0.RefCount := hwf r0 (List.mem_cons_self _ _) w0 hr0 hsw0t
            have hf1 : findW (setW h r0.Waiter
                { w0 with FiredEvent := r0.WaitIndex, StillWaiting := false })
                r0.Waiter =
                some { w0 with
                        FiredEvent := r0.WaitIndex
                        StillWaiting := false } :=
              findW_setW_self hr0
            refine Or.inr ⟨r0, w0, List.mem_cons_self _ _, rfl, rfl, hr0, hsw0t,
              ?_, ?_, ?_, ?_⟩
            · cases hx : w0.WaitAll with
              | false => rfl
              | true => exact absurd hx hwa0
            · cases hx : r0.Signalled with
              | false => rfl
              | true => exact absurd hx hs0
            · dsimp only
              rw [decRef_of_ge_two hf1 (by exact hrc), setW_setW,
                findW_setW_self hr0]
            · intro r2 hr2 hh
              exact hnd0 (hh ▸ List.mem_map_of_mem (·.Waiter) hr2)

/-- **C3**: for every `SetEvent` on an auto-reset event (starting from a
state with no pending signal, as the code itself asserts on the consumed
path): either the event's state is true after the call, or the signal was
consumed by exactly one wait-any coordinator — that coordinator's
`FiredEvent` was set to the registration's index, `StillWaiting` cleared,
`RefCount` decremented once, its registration erased from the registry — and
the state is left false.  Stated for registries with one registration per
coordinator and live coordinators holding at least two references (one for
the parked waiter, one for this registration). -/
theorem setEvent_auto_no_lost_wakeup (e : Event) (h : Heap)
    (hauto : e.AutoReset = true) (hstate : e.State = false)
    (hnd : (e.RegisteredWaits.map (·.Waiter)).Nodup)
    (hwf : ∀ r ∈ e.RegisteredWaits, ∀ w, findW h r.Waiter = some w →
      w.StillWaiting = true → 2 ≤ w.RefCount) :
    ((SetEvent e h).1.State = true ∧ (SetEvent e h).2.2 = []) ∨
    ((SetEvent e h).1.State = false ∧
      ∃ r w, r ∈ e.RegisteredWaits ∧
        (SetEvent e h).2.2 = [(r.Waiter, r.WaitIndex)] ∧
        findW h r.Waiter = some w ∧ w.StillWaiting = true ∧
        w.WaitAll = false ∧ r.Signalled = false ∧
        findW (SetEvent e h).2.1 r.Waiter =
          some { w with
                  FiredEvent := r.WaitIndex
                  StillWaiting := false
                  RefCount := w.RefCount - 1 } ∧
        (∀ r2 ∈ (SetEvent e h).1.RegisteredWaits, r2.Waiter ≠ r.Waiter)) := by
  rcases setLoop_auto_spec e.RegisteredWaits hnd h hwf with
    ⟨hc, hs⟩ | ⟨r, w, hrmem, hc, hs, hfr, hsw, hwa, hsg, hfa, hout⟩
  · left
    have hSE : SetEvent e h =
        ({ e with
            State := true
            RegisteredWaits := (setLoop true e.RegisteredWaits h).1 },
          (setLoop true e.RegisteredWaits h).2.1,
          (setLoop true e.RegisteredWaits h).2.2.2) := by
      simp [SetEvent, hauto, hc]
    rw [hSE]
    exact ⟨rfl, hs⟩
  · right
    have hSE : SetEvent e h =
        ({ e with RegisteredWaits := (setLoop true e.RegisteredWaits h).1 },
          (setLoop true e.RegisteredWaits h).2.1,
          (setLoop true e.RegisteredWaits h).2.2.2) := by
      simp [SetEvent, hauto, hc]
    rw [hSE]
    exact ⟨hstate, r, w, hrmem, hs, hfr, hsw, hwa, hsg, hfa, hout⟩

/-- Witness for `setEvent_auto_no_lost_wakeup`: an unsignaled auto-reset
event with a single still-waiting wait-any registration (coordinator 10,
`RefCount = 2`): `SetEvent` consumes the signal into that coordinator and
leaves the state false. -/
theorem setEvent_auto_no_lost_wakeup_witness :
    ((⟨true, false, false, [⟨10, 0, false⟩]⟩ : Event).AutoReset = true ∧
      (⟨true, false, false, [⟨10, 0, false⟩]⟩ : Event).State = false ∧
      ((([⟨10, 0, false⟩] : List RegWait).map (·.Waiter)).Nodup)) ∧
    (((SetEvent ⟨true, false, false, [⟨10, 0, false⟩]⟩
          [(10, ⟨2, -1, 0, false, true⟩)]).1.State = true ∧
        (SetEvent ⟨true, false, false, [⟨10, 0, false⟩]⟩
          [(10, ⟨2, -1, 0, false, true⟩)]).2.2 = []) ∨
      ((SetEvent ⟨true, false, false, [⟨10, 0, false⟩]⟩
          [(10, ⟨2, -1, 0, false, true⟩)]).1.State = false ∧
        ∃ r w, r ∈ (⟨true, false, false,
            [⟨10, 0, false⟩]⟩ : Event).RegisteredWaits ∧
          (SetEvent ⟨true, false, false, [⟨10, 0, false⟩]⟩
            [(10, ⟨2, -1, 0, false, true⟩)]).2.2 = [(r.Waiter, r.WaitIndex)] ∧
          findW [(10, ⟨2, -1, 0, false, true⟩)] r.Waiter = some w ∧
          w.StillWaiting = true ∧ w.WaitAll = false ∧ r.Signalled = false ∧
          findW (SetEvent ⟨true, false, false, [⟨10, 0, false⟩]⟩
              [(10, ⟨2, -1, 0, false, true⟩)]).2.1 r.Waiter =
            some { w with
                    FiredEvent := r.WaitIndex
                    StillWaiting := false
                    RefCount := w.RefCount - 1 } ∧
          (∀ r2 ∈ (SetEvent ⟨true, false, false, [⟨10, 0, false⟩]⟩
              [(10, ⟨2, -1, 0, false, true⟩)]).1.RegisteredWaits,
            r2.Waiter ≠ r.Waiter))) :=
  ⟨⟨rfl, rfl, by decide⟩,
    setEvent_auto_no_lost_wakeup ⟨true, false, false, [⟨10, 0, false⟩]⟩
      [(10, ⟨2, -1, 0, false, true⟩)] rfl rfl (by decide)
      (by
        intro r hr w hfw hsw
        rcases List.mem_singleton.mp hr with rfl
        have hval : w = ⟨2, -1, 0, false, true⟩ := by
          have hx : findW [(10, (⟨2, -1, 0, false, true⟩ : Wfmo))] 10 =
              some ⟨2, -1, 0, false, true⟩ := rfl
          rw [hx] at hfw
          exact (Option.some.injEq _ _ ▸ hfw).symm
        rw [hval])⟩

theorem setLoop_auto_break (t : List RegWait)
    (hnd : (t.map (·.Waiter)).Nodup) :
    ∀ (h : Heap), (setLoop true t h).2.2.1 = true →
      ∃ pre r suf, t = pre ++ r :: suf ∧
        (setLoop true t h).2.2.2 = [(r.Waiter, r.WaitIndex)] ∧
        (∃ pre2, (setLoop true t h).1 = pre2 ++ suf) ∧
        (∀ r2 ∈ suf, findW (setLoop true t h).2.1 r2.Waiter =
          findW h r2.Waiter) := by
  induction t with
  | nil => intro h hc; cases hc
  | cons r0 t ih =>
    intro h hcons
    have hnd0 : r0.Waiter ∉ t.map (·.Waiter) := (List.nodup_cons.mp hnd).1
    have hndt : (t.map (·.Waiter)).Nodup := (List.nodup_cons.mp hnd).2
    rw [setLoop] at hcons ⊢
    cases hr0 : findW h r0.Waiter with
    | none =>
      rw [hr0] at hcons
      dsimp only at hcons ⊢
      obtain ⟨pre, r, suf, hdec, hs, ⟨pre2, hout⟩, hheap⟩ := ih hndt h hcons
      exact ⟨r0 :: pre, r, suf, by rw [hdec]; rfl, hs,
        ⟨r0 :: pre2, by rw [hout]; rfl⟩, hheap⟩
    | some w0 =>
      rw [hr0] at hcons
      dsimp only at hcons ⊢
      by_cases hsw0 : w0.StillWaiting = false
      · rw [if_pos hsw0] at hcons ⊢
        obtain ⟨pre, r, suf, hdec, hs, ⟨pre2, hout⟩, hheap⟩ := ih hndt _ hcons
        refine ⟨r0 :: pre, r, suf, by rw [hdec]; rfl, hs, ⟨pre2, hout⟩, ?_⟩
        intro r2 hr2
        have hr2t : r2 ∈ t := by
          rw [hdec]
          exact List.mem_append_right _ (List.mem_cons_of_mem _ hr2)
        have hne : r0.Waiter ≠ r2.Waiter := by
          intro hh
          exact hnd0 (hh ▸ List.mem_map_of_mem (·.Waiter) hr2t)
        rw [hheap r2 hr2, findW_decRef_ne (Ne.symm hne)]
      · rw [if_neg hsw0] at hcons ⊢
        by_cases hs0 : r0.Signalled = true
        · rw [if_pos hs0] at hcons ⊢
          obtain ⟨pre, r, suf, hdec, hs, ⟨pre2, hout⟩, hheap⟩ := ih hndt h hcons
          exact ⟨r0 :: pre, r, suf, by rw [hdec]; rfl, hs,
            ⟨r0 :: pre2, by rw [hout]; rfl⟩, hheap⟩
        · rw [if_neg hs0] at hcons ⊢
          by_cases hwa0 : w0.WaitAll = true
          · rw [if_pos hwa0] at hcons ⊢
            obtain ⟨pre, r, suf, hdec, hs, ⟨pre2, hout⟩, hheap⟩ :=
              ih hndt _ hcons
            refine ⟨r0 :: pre, r, suf, by rw [hdec]; rfl, hs,
              ⟨{ r0 with Signalled := true } :: pre2, by rw [hout]; rfl⟩, ?_⟩
            intro r2 hr2
            have hr2t : r2 ∈ t := by
              rw [hdec]
              exact List.mem_append_right _ (List.mem_cons_of_mem _ hr2)
            have hne : r0.Waiter ≠ r2.Waiter := by
              intro hh
              exact hnd0 (hh ▸ List.mem_map_of_mem (·.Waiter) hr2t)
            rw [hheap r2 hr2, findW_setW_ne (Ne.symm hne)]
          · rw [if_neg hwa0, if_pos rfl] at hcons ⊢
            refine ⟨[], r0, t, rfl, rfl, ⟨[], rfl⟩, ?_⟩
            intro r2 hr2
            have hne : r0.Waiter ≠ r2.Waiter := by
              intro hh
              exact hnd0 (hh ▸ List.mem_map_of_mem (·.Waiter) hr2)
            dsimp only
            rw [findW_decRef_ne (Ne.symm hne), findW_setW_ne (Ne.symm hne)]

/-- **C4 is false as stated**: on a manual-reset event, `SetEvent` does not
break after serving a wait-any coordinator.  Concretely: a manual-reset event
whose registry holds two still-waiting wait-any registrations (coordinators
10 then 11) serves both — the ghost serve log is `[(10, 0), (11, 1)]` and the
later coordinator 11 ends with `FiredEvent = 1`, `StillWaiting = false`,
`RefCount` decremented — so a later registration was examined and served. -/
theorem setEvent_break_counterexample :
    (SetEvent ⟨false, false, false, [⟨10, 0, false⟩, ⟨11, 1, false⟩]⟩
        [(10, ⟨2, -1, 0, false, true⟩), (11, ⟨2, -1, 0, false, true⟩)]).2.2 =
      [(10, 0), (11, 1)] ∧
    findW (SetEvent ⟨false, false, false, [⟨10, 0, false⟩, ⟨11, 1, false⟩]⟩
        [(10, ⟨2, -1, 0, false, true⟩),
          (11, ⟨2, -1, 0, false, true⟩)]).2.1 11 =
      some ⟨1, 1, 0, false, false⟩ := by
  constructor <;> rfl

/-- **C4 (amended)**: the break after serving a wait-any coordinator happens
only when the event is auto-reset (`consumed` is set only then; on
manual-reset events the walk continues and may serve every still-waiting
wait-any registration).  For an auto-reset event: at most one coordinator is
served, and when one is served at some registry position, the whole suffix of
later registrations is neither examined nor modified — it reappears verbatim
at the tail of the walked registry and the coordinators it references are
untouched in the heap. -/
theorem setEvent_auto_break (e : Event) (h : Heap)
    (hauto : e.AutoReset = true)
    (hnd : (e.RegisteredWaits.map (·.Waiter)).Nodup) :
    (SetEvent e h).2.2.length ≤ 1 ∧
    (∀ (c : WaiterId) (idx : Int), (SetEvent e h).2.2 = [(c, idx)] →
      ∃ pre r suf, e.RegisteredWaits = pre ++ r :: suf ∧ r.Waiter = c ∧
        r.WaitIndex = idx ∧
        (∃ pre2, (SetEvent e h).1.RegisteredWaits = pre2 ++ suf) ∧
        (∀ r2 ∈ suf, findW (SetEvent e h).2.1 r2.Waiter =
          findW h r2.Waiter)) := by
  cases hc : (setLoop true e.RegisteredWaits h).2.2.1 with
  | false =>
    have hSE : SetEvent e h =
        ({ e with
            State := true
            RegisteredWaits := (setLoop true e.RegisteredWaits h).1 },
          (setLoop true e.RegisteredWaits h).2.1,
          (setLoop true e.RegisteredWaits h).2.2.2) := by
      simp [SetEvent, hauto, hc]
    rw [hSE]
    have hs : (setLoop true e.RegisteredWaits h).2.2.2 = [] :=
      setLoop_auto_not_consumed_served _ _ hc
    refine ⟨by rw [hs]; simp, ?_⟩
    intro c idx hctr
    rw [hs] at hctr
    cases hctr
  | true =>
    have hSE : SetEvent e h =
        ({ e with RegisteredWaits := (setLoop true e.RegisteredWaits h).1 },
          (setLoop true e.RegisteredWaits h).2.1,
          (setLoop true e.RegisteredWaits h).2.2.2) := by
      simp [SetEvent, hauto, hc]
    rw [hSE]
    obtain ⟨pre, r, suf, hdec, hs, ⟨pre2, hout⟩, hheap⟩ :=
      setLoop_auto_break e.RegisteredWaits hnd h hc
    refine ⟨?_, ?_⟩
    · dsimp only
      exact setLoop_auto_served_length e.RegisteredWaits h
    · intro c idx hctr
      dsimp only at hctr
      rw [hs] at hctr
      have h1 : r.Waiter = c ∧ r.WaitIndex = idx := by
        have := List.head_eq_of_cons_eq hctr
        exact ⟨congrArg Prod.fst this, congrArg Prod.snd this⟩
      exact ⟨pre, r, suf, hdec, h1.1, h1.2, ⟨pre2, hout⟩, hheap⟩

/-- Witness for `setEvent_auto_break`: the same two-registration registry as
the counterexample but on an auto-reset event; only coordinator 10 is served
and registration `⟨11, 1, false⟩` survives untouched, its coordinator record
unchanged. -/
theorem setEvent_auto_break_witness :
    ((⟨true, false, false, [⟨10, 0, false⟩, ⟨11, 1, false⟩]⟩ :
        Event).AutoReset = true ∧
      ((([⟨10, 0, false⟩, ⟨11, 1, false⟩] : List RegWait).map
        (·.Waiter)).Nodup) ∧
      (SetEvent ⟨true, false, false, [⟨10, 0, false⟩, ⟨11, 1, false⟩]⟩
        [(10, ⟨2, -1, 0, false, true⟩),
          (11, ⟨2, -1, 0, false, true⟩)]).2.2 = [(10, 0)]) ∧
    (∃ pre r suf,
      (⟨true, false, false, [⟨10, 0, false⟩, ⟨11, 1, false⟩]⟩ :
        Event).RegisteredWaits = pre ++ r :: suf ∧
      r.Waiter = 10 ∧ r.WaitIndex = 0 ∧
      (∃ pre2, (SetEvent ⟨true, false, false,
          [⟨10, 0, false⟩, ⟨11, 1, false⟩]⟩
        [(10, ⟨2, -1, 0, false, true⟩),
          (11, ⟨2, -1, 0, false, true⟩)]).1.RegisteredWaits = pre2 ++ suf) ∧
      (∀ r2 ∈ suf, findW (SetEvent ⟨true, false, false,
          [⟨10, 0, false⟩, ⟨11, 1, false⟩]⟩
        [(10, ⟨2, -1, 0, false, true⟩),
          (11, ⟨2, -1, 0, false, true⟩)]).2.1 r2.Waiter =
        findW [(10, ⟨2, -1, 0, false, true⟩),
          (11, ⟨2, -1, 0, false, true⟩)] r2.Waiter)) :=
  ⟨⟨rfl, by decide, rfl⟩,
    (setEvent_auto_break ⟨true, false, false, [⟨10, 0, false⟩, ⟨11, 1, false⟩]⟩
      [(10, ⟨2, -1, 0, false, true⟩), (11, ⟨2, -1, 0, false, true⟩)]
      rfl (by decide)).2 10 0 rfl⟩

/-! ## The wait-all atomic-claim step -/

theorem unlock_mark (e : Event) (he : e.Locked = false) :
    ({ { e with Locked := true } with Locked := false } : Event) = e := by
  obtain ⟨a, s, l, r⟩ := e
  simp only at he
  rw [he]

theorem map_unlock_mark (l : List Event) (hl : ∀ e ∈ l, e.Locked = false) :
    (l.map (fun e => { e with Locked := true })).map
      (fun x => { x with Locked := false }) = l := by
  induction l with
  | nil => rfl
  | cons e t ih =>
    simp only [List.map_cons]
    rw [unlock_mark e (hl e (List.mem_cons_self _ _)),
      ih (fun x hx => hl x (List.mem_cons_of_mem _ hx))]

theorem claimScan_stolen (pending : List Event) :
    ∀ (pre : List Event) (h : Heap),
      (∀ e ∈ pre, e.Locked = false) → (∀ e ∈ pending, e.Locked = false) →
      (∃ e ∈ pending, e.State = false) →
      claimScan h (pre.map (fun e => { e with Locked := true })).reverse
        pending = some (false, pre ++ pending, h) := by
  induction pending with
  | nil =>
    rintro pre h _ _ ⟨e, he, _⟩
    cases he
  | cons e rest ih =>
    rintro pre h hpre hpend ⟨x, hx, hxs⟩
    have he : e.Locked = false := hpend e (List.mem_cons_self _ _)
    rw [claimScan]
    rw [if_neg (by rw [he]; exact fun hc => Bool.noConfusion hc)]
    dsimp only
    by_cases hstate : e.State = false
    · rw [if_pos hstate]
      rw [List.reverse_reverse, map_unlock_mark pre hpre, unlock_mark e he]
    · rw [if_neg hstate]
      have hstate' : e.State = true := by
        cases hx2 : e.State with
        | true => rfl
        | false => exact absurd hx2 hstate
      have hrw : claimScan h ({ e with Locked := true } ::
          (pre.map (fun e => { e with Locked := true })).reverse) rest =
          claimScan h
            (((pre ++ [e]).map (fun e => { e with Locked := true })).reverse)
            rest := by
        rw [List.map_append, List.reverse_append]
        rfl
      rw [hrw, ih (pre ++ [e]) h
        (by
          intro y hy
          rcases List.mem_append.mp hy with hy | hy
          · exact hpre y hy
          · rw [List.mem_singleton.mp hy]; exact he)
        (fun y hy => hpend y (List.mem_cons_of_mem _ hy))
        ⟨x, by
          rcases List.mem_cons.mp hx with rfl | hxr
          · rw [hstate'] at hxs; cases hxs
          · exact hxr, hxs⟩]
      rw [List.append_assoc]
      rfl

/-- The stolen-signal outcome of the atomic-claim step: when some event's
state is observed false under the lock, every acquired mutex is released and
the step reports failure with the events and the heap — in particular every
coordinator's `events_left` — exactly as they were. -/
theorem tryClaimAll_stolen (evs : List Event) (h : Heap)
    (hunlocked : ∀ e ∈ evs, e.Locked = false)
    (hstolen : ∃ e ∈ evs, e.State = false) :
    tryClaimAll evs h = some (false, evs, h) := by
  have := claimScan_stolen evs [] h (by intro e he; cases he) hunlocked hstolen
  simpa [tryClaimAll] using this

/-- **C2 is false as stated**: a wait-all waiter that reaches the claim step
with `events_left = 0` and finds the single event stolen (`state == false`,
registration still flagged `signalled_for_this_wait`) returns to waiting with
`events_left` still 0 — it does not set it back to the count of stolen events
(here 1) by re-scanning; the code leaves that to the stealing thread's drain
(pevents.cpp:349-350). -/
theorem claim_restore_counterexample :
    ((⟨true, false, false, [⟨5, 0, true⟩]⟩ : Event).State = false) ∧
    (wfmoWaitStep true 5 0 [⟨true, false, false, [⟨5, 0, true⟩]⟩]
        [(5, ⟨2, -1, 0, true, true⟩)] false).1 = some WAIT_TIMEOUT ∧
    (wfmoWaitStep true 5 0 [⟨true, false, false, [⟨5, 0, true⟩]⟩]
        [(5, ⟨2, -1, 0, true, true⟩)] false).2.2 =
      [(5, ⟨2, -1, 0, true, true⟩)] ∧
    ¬(findW (wfmoWaitStep true 5 0 [⟨true, false, false, [⟨5, 0, true⟩]⟩]
        [(5, ⟨2, -1, 0, true, true⟩)] false).2.2 5 =
      some ⟨2, -1, 1, true, true⟩) := by
  refine ⟨rfl, rfl, rfl, ?_⟩
  intro hc
  cases hc

/-- **C2 (amended)**: in the wait-all atomic-claim step, when the waiter
holds event mutexes and observes some event's `state == false`, it unlocks
every event mutex it acquired and returns to waiting without modifying
`events_left` or any other coordinator state: the claim step returns the
events (lock flags included) and the heap unchanged, and with a zero timeout
the wait records `WAIT_TIMEOUT` on that unchanged state.  (`events_left` is
restored by the stealing thread's drain path instead, which is the undo
proved for the drain in the wait-all claim bookkeeping.) -/
theorem claim_stolen_state_unchanged :
    (∀ (evs : List Event) (h : Heap),
      (∀ e ∈ evs, e.Locked = false) → (∃ e ∈ evs, e.State = false) →
      tryClaimAll evs h = some (false, evs, h)) ∧
    (∀ (evs : List Event) (h : Heap) (wid : WaiterId) (w : Wfmo),
      (∀ e ∈ evs, e.Locked = false) → (∃ e ∈ evs, e.State = false) →
      findW h wid = some w → w.EventsLeft = 0 →
      wfmoWaitStep true wid 0 evs h false = (some WAIT_TIMEOUT, evs, h)) := by
  refine ⟨tryClaimAll_stolen, ?_⟩
  intro evs h wid w hunlocked hstolen hf hel
  rw [wfmoWaitStep]
  rw [if_neg (by exact fun hc => Bool.noConfusion hc)]
  rw [if_neg (by simp)]
  rw [if_pos (by rw [hf]; simp [hel])]
  rw [tryClaimAll_stolen evs h hunlocked hstolen]
  rfl

/-- Witness for `claim_stolen_state_unchanged` on the counterexample state:
one auto-reset event with a stolen signal; the claim step fails and leaves
everything unchanged. -/
theorem claim_stolen_state_unchanged_witness :
    ((∀ e ∈ [(⟨true, false, false, [⟨5, 0, true⟩]⟩ : Event)],
        e.Locked = false) ∧
      (∃ e ∈ [(⟨true, false, false, [⟨5, 0, true⟩]⟩ : Event)],
        e.State = false) ∧
      findW [(5, ⟨2, -1, 0, true, true⟩)] 5 = some ⟨2, -1, 0, true, true⟩ ∧
      (⟨2, -1, 0, true, true⟩ : Wfmo).EventsLeft = 0) ∧
    wfmoWaitStep true 5 0 [⟨true, false, false, [⟨5, 0, true⟩]⟩]
        [(5, ⟨2, -1, 0, true, true⟩)] false =
      (some WAIT_TIMEOUT, [⟨true, false, false, [⟨5, 0, true⟩]⟩],
        [(5, ⟨2, -1, 0, true, true⟩)]) :=
  ⟨⟨by decide, by decide, by decide, rfl⟩,
    claim_stolen_state_unchanged.2 [⟨true, false, false, [⟨5, 0, true⟩]⟩]
      [(5, ⟨2, -1, 0, true, true⟩)] 5 ⟨2, -1, 0, true, true⟩
      (by decide) (by decide) (by decide) rfl⟩

theorem claimScan_success (pending : List Event) :
    ∀ (locked : List Event) (h : Heap),
      (∀ e ∈ pending, e.Locked = false ∧ e.State = true) →
      claimScan h locked pending =
        some (true,
          (consumeAll (locked.reverse ++ pending.map
            (fun e => { e with Locked := true })) h).1,
          (consumeAll (locked.reverse ++ pending.map
            (fun e => { e with Locked := true })) h).2) := by
  induction pending with
  | nil =>
    intro locked h _
    rw [claimScan]
    simp
  | cons e rest ih =>
    intro locked h hall
    have he := hall e (List.mem_cons_self _ _)
    rw [claimScan]
    rw [if_neg (by rw [he.1]; exact fun hc => Bool.noConfusion hc)]
    dsimp only
    rw [if_neg (by rw [he.2]; exact fun hc => Bool.noConfusion hc)]
    rw [ih ({ e with Locked := true } :: locked) h
      (fun y hy => hall y (List.mem_cons_of_mem _ hy))]
    rw [List.reverse_cons, List.append_assoc]
    rfl

theorem consumeAll_auto_states (l : List Event) :
    ∀ (h : Heap), (∀ e ∈ l, e.State = true ∧ e.AutoReset = true) →
      ∀ e2 ∈ (consumeAll l h).1, e2.State = false := by
  induction l with
  | nil => intro h _ e2 he2; cases he2
  | cons e t ih =>
    intro h hall e2 he2
    have he := hall e (List.mem_cons_self _ _)
    rw [consumeAll] at he2
    have hred : UnlockedWaitForEvent e h 0 =
        (some 0, { e with
            State := false
            RegisteredWaits := (drainRegs e.RegisteredWaits h).1 },
          (drainRegs e.RegisteredWaits h).2) := by
      simp [UnlockedWaitForEvent, he.1, he.2]
    rw [hred] at he2
    dsimp only at he2
    rcases List.mem_cons.mp he2 with rfl | he2t
    · rfl
    · exact ih _ (fun y hy => hall y (List.mem_cons_of_mem _ hy)) e2 he2t

theorem sweepRegs_preserve_still (t : List RegWait) :
    ∀ (h : Heap) (c : WaiterId) (w : Wfmo), findW h c = some w →
      w.StillWaiting = true → findW (sweepRegs t h).2 c = some w := by
  induction t with
  | nil => intro h c w hf _; exact hf
  | cons r t ih =>
    intro h c w hf hsw
    rw [sweepRegs]
    dsimp only
    cases hr : findW h r.Waiter with
    | none =>
      rw [RemoveExpiredWaitHelper, hr]
      exact ih h c w hf hsw
    | some w0 =>
      rw [RemoveExpiredWaitHelper, hr]
      dsimp only
      cases hsw0 : w0.StillWaiting with
      | true =>
        rw [if_pos rfl]
        exact ih h c w hf hsw
      | false =>
        rw [if_neg (by exact fun hc => Bool.noConfusion hc)]
        have hne : r.Waiter ≠ c := by
          intro hh
          rw [hh, hf] at hr
          cases hr
          rw [hsw] at hsw0
          cases hsw0
        exact ih _ c w
          (by rw [findW_decRef_ne (Ne.symm hne)]; exact hf) hsw

theorem regLoop_cons_waitall (wid : WaiterId) (count : Int) (e : Event)
    (t : List Event) (i : Nat) (h : Heap) (sr es : Int) :
    regLoop true wid count (e :: t) i h sr es false =
      (({ e with RegisteredWaits :=
            (sweepRegs e.RegisteredWaits h).1 ++ [⟨wid, (i : Int), e.State⟩] } :
          Event) ::
        (regLoop true wid count t (i + 1) (sweepRegs e.RegisteredWaits h).2 sr
          (if e.State = true then es + 1 else es) false).1,
        (regLoop true wid count t (i + 1) (sweepRegs e.RegisteredWaits h).2 sr
          (if e.State = true then es + 1 else es) false).2) := by
  by_cases hst : e.State = true
  · simp [regLoop, hst]
  · simp [regLoop, hst]

theorem regLoop_waitall (wid : WaiterId) (count : Int) (t : List Event) :
    ∀ (i : Nat) (h : Heap) (sr es : Int),
      (regLoop true wid count t i h sr es false).2.2.2.2 = false ∧
      (regLoop true wid count t i h sr es false).2.2.1 = sr ∧
      (regLoop true wid count t i h sr es false).2.2.2.1 =
        es + ((t.countP (fun e => e.State)) : Int) ∧
      (regLoop true wid count t i h sr es false).1.map (·.State) =
        t.map (·.State) ∧
      (regLoop true wid count t i h sr es false).1.map (·.AutoReset) =
        t.map (·.AutoReset) ∧
      (regLoop true wid count t i h sr es false).1.map (·.Locked) =
        t.map (·.Locked) ∧
      (∀ (c : WaiterId) (w : Wfmo), findW h c = some w →
        w.StillWaiting = true →
        findW (regLoop true wid count t i h sr es false).2.1 c = some w) := by
  induction t with
  | nil =>
    intro i h sr es
    refine ⟨rfl, rfl, by simp [regLoop], rfl, rfl, rfl, fun c w hf _ => hf⟩
  | cons e t ih =>
    intro i h sr es
    rw [regLoop_cons_waitall]
    obtain ⟨ihdone, ihsr, ihes, ihS, ihA, ihL, ihheap⟩ :=
      ih (i + 1) (sweepRegs e.RegisteredWaits h).2 sr
        (if e.State = true then es + 1 else es)
    refine ⟨ihdone, ihsr, ?_, ?_, ?_, ?_, ?_⟩
    · rw [ihes, List.countP_cons]
      by_cases hst : e.State = true
      · simp only [hst, if_true]
        push_cast [hst]
        ring
      · simp [hst]
    · dsimp only [List.map_cons]
      rw [ihS]
    · dsimp only [List.map_cons]
      rw [ihA]
    · dsimp only [List.map_cons]
      rw [ihL]
    · intro c w hf hsw
      exact ihheap c w (sweepRegs_preserve_still _ h c w hf hsw) hsw

theorem forall_of_map_eq {l2 l : List Event} (f : Event → Bool)
    (hmap : l2.map f = l.map f) (b : Bool) (hl : ∀ x ∈ l, f x = b) :
    ∀ x ∈ l2, f x = b := by
  intro x hx
  have hmem : f x ∈ l2.map f := List.mem_map_of_mem f hx
  rw [hmap] at hmem
  rcases List.mem_map.mp hmem with ⟨y, hy, hfy⟩
  rw [← hfy]
  exact hl y hy

/-- **C1**: a `WaitForMultipleEvents(events, count, waitAll = true, timeout)`
call over auto-reset events that returns 0 consumed exactly one signal from
every event: each was signaled on entry and unsignaled on return; a call that
returns `WAIT_TIMEOUT` consumed nothing: the state vector is exactly what it
was on entry (so every event signaled on entry is still signaled). -/
theorem wfme_waitall_atomic (evs : List Event) (ms : Nat) (h : Heap)
    (wid : WaiterId)
    (hauto : ∀ e ∈ evs, e.AutoReset = true)
    (hunlocked : ∀ e ∈ evs, e.Locked = false) :
    ∀ (res idx : Int) (evs2 : List Event) (h2 : Heap),
      WaitForMultipleEvents evs true ms h wid = some (res, idx, evs2, h2) →
      (res = 0 →
        (∀ e ∈ evs, e.State = true) ∧ (∀ e ∈ evs2, e.State = false)) ∧
      (res = WAIT_TIMEOUT → evs2.map (·.State) = evs.map (·.State)) := by
  intro res idx evs2 h2 hcall
  simp only [WaitForMultipleEvents] at hcall
  obtain ⟨hdone, hsr, hes, hmapS, hmapA, hmapL, hheap⟩ :=
    regLoop_waitall wid ((evs.length : Int)) evs 0
      ((wid, initWfmo true (evs.length : Int)) :: h) 0 0
  rw [hdone] at hcall
  have hfw : findW (regLoop true wid ((evs.length : Int)) evs 0
      ((wid, initWfmo true (evs.length : Int)) :: h) 0 0 false).2.1 wid =
      some (initWfmo true (evs.length : Int)) :=
    hheap wid _ (by rw [findW]; simp) rfl
  rw [hfw] at hcall
  dsimp only at hcall
  rw [hes, zero_add] at hcall
  rw [wfmoWaitStep] at hcall
  rw [if_neg (by exact fun hc => Bool.noConfusion hc)] at hcall
  rw [if_neg (by simp)] at hcall
  simp only [if_true] at hcall
  rw [findW_setW_self hfw] at hcall
  dsimp only [Option.elim] at hcall
  have hEL : (initWfmo true (evs.length : Int)).EventsLeft =
      (evs.length : Int) := by simp [initWfmo]
  rw [hEL] at hcall
  simp only [decide_eq_true_eq] at hcall
  by_cases hcnt : evs.countP (fun e => e.State) = evs.length
  · -- every event was signaled at registration: the claim step consumes all
    have hz : (evs.length : Int) - ((evs.countP (fun e => e.State)) : Int)
        = 0 := by
      rw [hcnt]; ring
    rw [if_pos hz] at hcall
    have hallS : ∀ e ∈ evs, e.State = true := by
      intro e he
      have := List.countP_eq_length.mp hcnt e he
      simpa using this
    have hS1 : ∀ e ∈ (regLoop true wid ((evs.length : Int)) evs 0
        ((wid, initWfmo true (evs.length : Int)) :: h) 0 0 false).1,
        e.State = true := forall_of_map_eq _ hmapS true hallS
    have hL1 : ∀ e ∈ (regLoop true wid ((evs.length : Int)) evs 0
        ((wid, initWfmo true (evs.length : Int)) :: h) 0 0 false).1,
        e.Locked = false := forall_of_map_eq _ hmapL false hunlocked
    have hA1 : ∀ e ∈ (regLoop true wid ((evs.length : Int)) evs 0
        ((wid, initWfmo true (evs.length : Int)) :: h) 0 0 false).1,
        e.AutoReset = true := forall_of_map_eq _ hmapA true hauto
    rw [tryClaimAll] at hcall
    rw [claimScan_success _ [] _ (fun e he => ⟨hL1 e he, hS1 e he⟩)] at hcall
    dsimp only at hcall
    rw [Option.some_inj, Prod.mk.injEq, Prod.mk.injEq, Prod.mk.injEq] at hcall
    obtain ⟨hres, _, hevs2, _⟩ := hcall
    constructor
    · intro _
      refine ⟨hallS, ?_⟩
      rw [← hevs2]
      refine consumeAll_auto_states _ _ ?_
      intro x hx
      simp only [List.reverse_nil, List.nil_append] at hx
      rcases List.mem_map.mp hx with ⟨y, hy, rfl⟩
      exact ⟨hS1 y hy, hA1 y hy⟩
    · intro hres2
      rw [← hres] at hres2
      exact absurd hres2 (by decide)
  · -- some event was unsignaled: EventsLeft stays positive, the call times out
    have hnz : ¬((evs.length : Int) - ((evs.countP (fun e => e.State)) : Int)
        = 0) := by
      intro hc
      apply hcnt
      have hcast : ((evs.countP (fun e => e.State)) : Int) =
          (evs.length : Int) := by omega
      exact_mod_cast hcast
    rw [if_neg hnz] at hcall
    by_cases hms0 : ms = 0
    · rw [if_pos hms0] at hcall
      dsimp only at hcall
      rw [Option.some_inj, Prod.mk.injEq, Prod.mk.injEq, Prod.mk.injEq]
        at hcall
      obtain ⟨hres, _, hevs2, _⟩ := hcall
      constructor
      · intro hres2
        rw [← hres] at hres2
        exact absurd hres2 (by decide)
      · intro _
        rw [← hevs2]
        exact hmapS
    · rw [if_neg hms0] at hcall
      by_cases hmsI : ms = WAIT_INFINITE
      · rw [if_pos hmsI] at hcall
        cases hcall
      · rw [if_neg hmsI] at hcall
        dsimp only at hcall
        rw [Option.some_inj, Prod.mk.injEq, Prod.mk.injEq, Prod.mk.injEq]
          at hcall
        obtain ⟨hres, _, hevs2, _⟩ := hcall
        constructor
        · intro hres2
          rw [← hres] at hres2
          exact absurd hres2 (by decide)
        · intro _
          rw [← hevs2]
          exact hmapS

/-- Witness for `wfme_waitall_atomic`: spec scenario S3 — three auto-reset
events, all initially set, `waitAll = true`, timeout 0: the call returns 0,
every state was true on entry and every state is false afterwards. -/
theorem wfme_waitall_atomic_witness :
    ((∀ e ∈ [(⟨true, true, false, []⟩ : Event), ⟨true, true, false, []⟩,
        ⟨true, true, false, []⟩], e.AutoReset = true) ∧
      (∀ e ∈ [(⟨true, true, false, []⟩ : Event), ⟨true, true, false, []⟩,
        ⟨true, true, false, []⟩], e.Locked = false) ∧
      WaitForMultipleEvents [⟨true, true, false, []⟩, ⟨true, true, false, []⟩,
          ⟨true, true, false, []⟩] true 0 [] 7 =
        some (0, -1,
          [⟨true, false, false, [⟨7, 0, false⟩]⟩,
            ⟨true, false, false, [⟨7, 1, false⟩]⟩,
            ⟨true, false, false, [⟨7, 2, false⟩]⟩],
          [(7, ⟨3, -1, 3, true, false⟩)])) ∧
    (((0 : Int) = 0 →
        (∀ e ∈ [(⟨true, true, false, []⟩ : Event), ⟨true, true, false, []⟩,
          ⟨true, true, false, []⟩], e.State = true) ∧
        (∀ e ∈ [(⟨true, false, false, [⟨7, 0, false⟩]⟩ : Event),
            ⟨true, false, false, [⟨7, 1, false⟩]⟩,
            ⟨true, false, false, [⟨7, 2, false⟩]⟩], e.State = false)) ∧
      ((0 : Int) = WAIT_TIMEOUT →
        ([(⟨true, false, false, [⟨7, 0, false⟩]⟩ : Event),
            ⟨true, false, false, [⟨7, 1, false⟩]⟩,
            ⟨true, false, false, [⟨7, 2, false⟩]⟩].map (·.State)) =
          ([(⟨true, true, false, []⟩ : Event), ⟨true, true, false, []⟩,
            ⟨true, true, false, []⟩].map (·.State)))) :=
  ⟨⟨by decide, by decide, by decide⟩,
    wfme_waitall_atomic
      [⟨true, true, false, []⟩, ⟨true, true, false, []⟩,
        ⟨true, true, false, []⟩] 0 [] 7 (by decide) (by decide) 0 (-1)
      [⟨true, false, false, [⟨7, 0, false⟩]⟩,
        ⟨true, false, false, [⟨7, 1, false⟩]⟩,
        ⟨true, false, false, [⟨7, 2, false⟩]⟩]
      [(7, ⟨3, -1, 3, true, false⟩)] (by decide)⟩

/-! ## Reference-count accounting

`RefCount` bookkeeping: a live coordinator's count equals the number of
registrations pointing at it across all event registries, plus the share
still held by its waiting thread (`1 + skipped_refs` while the thread has not
yet performed its exit decrement) — the ghost `p` below.  `RefAcct` is the
between-steps invariant; the walks preserve it, every decrement happens on a
strictly positive count, and the decrement that reaches zero erases the
record. -/

theorem cntW_cons (r : RegWait) (t : List RegWait) (c : WaiterId) :
    cntW (r :: t) c = cntW t c + (if r.Waiter = c then 1 else 0) := by
  simp [cntW, List.countP_cons]

theorem keys_setW (h : Heap) (c : WaiterId) (w : Wfmo) :
    (setW h c w).map Prod.fst = h.map Prod.fst := by
  induction h with
  | nil => rfl
  | cons p t ih =>
    obtain ⟨k, v⟩ := p
    by_cases hk : k = c <;> simp [setW, hk, ih]

theorem findW_none_of_not_mem {h : Heap} {c : WaiterId}
    (hc : c ∉ h.map Prod.fst) : findW h c = none := by
  induction h with
  | nil => rfl
  | cons p t ih =>
    obtain ⟨k, v⟩ := p
    have hk : k ≠ c := by
      intro hh; exact hc (by simp [hh])
    simp only [findW, hk, if_false]
    exact ih fun hh => hc (List.mem_cons_of_mem _ hh)

theorem keys_eraseW_sublist (h : Heap) (c : WaiterId) :
    ((eraseW h c).map Prod.fst).Sublist (h.map Prod.fst) := by
  induction h with
  | nil => exact List.Sublist.refl _
  | cons p t ih =>
    obtain ⟨k, v⟩ := p
    by_cases hk : k = c
    · simp only [eraseW, hk, if_true, List.map_cons]
      exact (List.sublist_cons_self _ _)
    · simp only [eraseW, hk, if_false, List.map_cons]
      exact ih.cons₂ _

theorem nodup_keys_eraseW {h : Heap} (c : WaiterId)
    (hnd : (h.map Prod.fst).Nodup) : ((eraseW h c).map Prod.fst).Nodup :=
  (keys_eraseW_sublist h c).nodup hnd

theorem findW_eraseW_self {h : Heap} {c : WaiterId}
    (hnd : (h.map Prod.fst).Nodup) : findW (eraseW h c) c = none := by
  induction h with
  | nil => rfl
  | cons p t ih =>
    obtain ⟨k, v⟩ := p
    by_cases hk : k = c
    · simp only [eraseW, hk, if_true]
      subst hk
      exact findW_none_of_not_mem (List.nodup_cons.mp hnd).1
    · simp only [eraseW, hk, if_false, findW, hk]
      exact ih (List.nodup_cons.mp hnd).2

theorem nodup_keys_decRef {h : Heap} (c : WaiterId)
    (hnd : (h.map Prod.fst).Nodup) : ((decRef h c).map Prod.fst).Nodup := by
  rw [decRef]
  cases findW h c with
  | none => exact hnd
  | some w =>
    by_cases h1 : w.RefCount = 1
    · simp only [h1, if_true]
      exact nodup_keys_eraseW c hnd
    · simp only [h1, if_false]
      rw [keys_setW]
      exact hnd

/-- Accounting step for every "drop one reference and erase the
registration" path: if the count of `c0`'s registrations includes the one
being erased (the `if c0 = c then 1 else 0` summand), then after `decRef` the
invariant holds with that summand gone; the decrement saw a strictly
positive count, and the record is destroyed exactly when the count reaches
zero (in which case no registration of `c0` remains and its pending share is
zero). -/
theorem decRef_remove_acct (h : Heap) (c0 : WaiterId) (w0 : Wfmo)
    (cnt : WaiterId → Nat) (rest : WaiterId → Int)
    (hnd : (h.map Prod.fst).Nodup)
    (hrest : ∀ c, 0 ≤ rest c)
    (H : ∀ c w, findW h c = some w →
      w.RefCount = ((cnt c : Int) + (if c0 = c then 1 else 0)) + rest c ∧
      0 < w.RefCount)
    (Hd : ∀ c, findW h c = none →
      cnt c + (if c0 = c then 1 else 0) = 0 ∧ rest c = 0)
    (hf : findW h c0 = some w0) :
    ((decRef h c0).map Prod.fst).Nodup ∧
    (∀ c w, findW (decRef h c0) c = some w →
      w.RefCount = (cnt c : Int) + rest c ∧ 0 < w.RefCount) ∧
    (∀ c, findW (decRef h c0) c = none → cnt c = 0 ∧ rest c = 0) := by
  have hself := H c0 w0 hf
  rw [if_pos rfl] at hself
  by_cases hrc1 : w0.RefCount = 1
  · have hzero : cnt c0 = 0 ∧ rest c0 = 0 := by
      have h1 := hself.1
      have h2 := hrest c0
      have h3 : (0 : Int) ≤ (cnt c0 : Int) := Int.ofNat_nonneg _
      rw [hrc1] at h1
      constructor
      · have : (cnt c0 : Int) = 0 := by omega
        exact_mod_cast this
      · omega
    have hdec : decRef h c0 = eraseW h c0 := by simp [decRef, hf, hrc1]
    rw [hdec]
    refine ⟨nodup_keys_eraseW c0 hnd, ?_, ?_⟩
    · intro c w hfw
      by_cases hc : c0 = c
      · rw [← hc, findW_eraseW_self hnd] at hfw
        cases hfw
      · rw [findW_eraseW_ne (Ne.symm hc)] at hfw
        have := H c w hfw
        rw [if_neg hc] at this
        exact ⟨by linarith [this.1], this.2⟩
    · intro c hfn
      by_cases hc : c0 = c
      · exact hc ▸ hzero
      · rw [findW_eraseW_ne (Ne.symm hc)] at hfn
        have := Hd c hfn
        rw [if_neg hc] at this
        exact ⟨by omega, this.2⟩
  · have hdec : decRef h c0 =
        setW h c0 { w0 with RefCount := w0.RefCount - 1 } := by
      simp [decRef, hf, hrc1]
    rw [hdec]
    refine ⟨by rw [keys_setW]; exact hnd, ?_, ?_⟩
    · intro c w hfw
      by_cases hc : c0 = c
      · subst hc
        rw [findW_setW_self hf] at hfw
        cases hfw
        have h3 : (0 : Int) ≤ (cnt c0 : Int) := Int.ofNat_nonneg _
        have h2 := hrest c0
        constructor
        · dsimp only
          omega
        · dsimp only
          omega
      · rw [findW_setW_ne (Ne.symm hc)] at hfw
        have := H c w hfw
        rw [if_neg hc] at this
        exact ⟨by linarith [this.1], this.2⟩
    · intro c hfn
      by_cases hc : c0 = c
      · rw [← hc, findW_setW_self hf] at hfn
        cases hfn
      · rw [findW_setW_ne (Ne.symm hc)] at hfn
        have := Hd c hfn
        rw [if_neg hc] at this
        exact ⟨by omega, this.2⟩

/-- The `SetEvent` registry walk preserves the reference-count accounting:
with `cntW t` the registrations in the walked registry and `rest` everything
else a coordinator is owed (other registries plus its waiter's pending
share), the invariant holds afterwards for the walked registry's new
contents; every decrement on the way observed a strictly positive count and
destruction happened exactly at zero. -/
theorem setLoop_acct (auto : Bool) (t : List RegWait) :
    ∀ (h : Heap) (rest : WaiterId → Int),
      (h.map Prod.fst).Nodup →
      (∀ c, 0 ≤ rest c) →
      (∀ c w, findW h c = some w →
        w.RefCount = (cntW t c : Int) + rest c ∧ 0 < w.RefCount) →
      (∀ c, findW h c = none → cntW t c = 0 ∧ rest c = 0) →
      ((setLoop auto t h).2.1.map Prod.fst).Nodup ∧
      (∀ c w, findW (setLoop auto t h).2.1 c = some w →
        w.RefCount = (cntW (setLoop auto t h).1 c : Int) + rest c ∧
        0 < w.RefCount) ∧
      (∀ c, findW (setLoop auto t h).2.1 c = none →
        cntW (setLoop auto t h).1 c = 0 ∧ rest c = 0) := by
  induction t with
  | nil =>
    intro h rest hnd hrest H Hd
    exact ⟨hnd, H, Hd⟩
  | cons r0 t ih =>
    intro h rest hnd hrest H Hd
    rw [setLoop]
    cases hr0 : findW h r0.Waiter with
    | none =>
      exact absurd (Hd r0.Waiter hr0).1
        (by rw [cntW_cons, if_pos rfl]; omega)
    | some w0 =>
      dsimp only
      by_cases hsw0 : w0.StillWaiting = false
      · -- expired coordinator: drop the reference, erase the registration
        rw [if_pos hsw0]
        have hstep := decRef_remove_acct h r0.Waiter w0 (cntW t) rest hnd
          hrest
          (by
            intro c w hfw
            have := H c w hfw
            rw [cntW_cons] at this
            refine ⟨?_, this.2⟩
            by_cases hc : r0.Waiter = c
            · simp only [hc, eq_self_iff_true, if_true, if_false] at this ⊢
              push_cast at this ⊢
              omega
            · simp only [hc, if_true, if_false] at this ⊢
              push_cast at this ⊢
              omega)
          (by
            intro c hfn
            have := Hd c hfn
            rw [cntW_cons] at this
            exact ⟨this.1, this.2⟩)
          hr0
        exact ih _ rest hstep.1 hrest hstep.2.1 hstep.2.2
      · rw [if_neg hsw0]
        by_cases hs0 : r0.Signalled = true
        · -- already counted: keep the registration, heap untouched
          rw [if_pos hs0]
          obtain ⟨ndq, Hq, Hdq⟩ := ih h
            (fun c => rest c + (if r0.Waiter = c then 1 else 0)) hnd
            (fun c => by
              have h1 := hrest c
              dsimp only
              split <;> omega)
            (by
              intro c w hfw
              have := H c w hfw
              rw [cntW_cons] at this
              refine ⟨?_, this.2⟩
              by_cases hc : r0.Waiter = c
              · simp only [hc, eq_self_iff_true, if_true, if_false] at this ⊢
                push_cast at this ⊢
                omega
              · simp only [hc, if_true, if_false] at this ⊢
                push_cast at this ⊢
                omega)
            (by
              intro c hfn
              have := Hd c hfn
              rw [cntW_cons] at this
              dsimp only
              rcases this with ⟨h1, h2⟩
              by_cases hc : r0.Waiter = c
              · rw [if_pos hc] at h1 ⊢
                exact ⟨by omega, by omega⟩
              · rw [if_neg hc] at h1 ⊢
                exact ⟨by omega, by omega⟩)
          refine ⟨ndq, ?_, ?_⟩
          · intro c w hfw
            have := Hq c w hfw
            rw [cntW_cons]
            refine ⟨?_, this.2⟩
            by_cases hc : r0.Waiter = c
            · simp only [hc, eq_self_iff_true, if_true, if_false] at this ⊢
              push_cast at this ⊢
              omega
            · simp only [hc, if_true, if_false] at this ⊢
              push_cast at this ⊢
              omega
          · intro c hfn
            have h3 := Hdq c hfn
            rw [cntW_cons]
            rcases h3 with ⟨h1, h2⟩
            by_cases hc : r0.Waiter = c
            · rw [if_pos hc] at h2 ⊢
              have h4 := hrest c
              exact ⟨by omega, by omega⟩
            · rw [if_neg hc] at h2 ⊢
              exact ⟨by omega, by omega⟩
        · rw [if_neg hs0]
          by_cases hwa0 : w0.WaitAll = true
          · -- wait-all claim: EventsLeft changes, RefCount does not;
            -- the registration stays (with its flag set)
            rw [if_pos hwa0]
            have hf1 : findW (setW h r0.Waiter
                { w0 with EventsLeft := w0.EventsLeft - 1 }) r0.Waiter =
                some { w0 with EventsLeft := w0.EventsLeft - 1 } :=
              findW_setW_self hr0
            obtain ⟨ndq, Hq, Hdq⟩ := ih
              (setW h r0.Waiter { w0 with EventsLeft := w0.EventsLeft - 1 })
              (fun c => rest c + (if r0.Waiter = c then 1 else 0))
              (by rw [keys_setW]; exact hnd)
              (fun c => by
                have h1 := hrest c
                dsimp only
                split <;> omega)
              (by
                intro c w hfw
                by_cases hc : r0.Waiter = c
                · subst hc
                  rw [hf1] at hfw
                  cases hfw
                  have := H r0.Waiter w0 hr0
                  rw [cntW_cons, if_pos rfl] at this
                  refine ⟨?_, this.2⟩
                  dsimp only
                  rw [if_pos rfl]
                  push_cast at this ⊢
                  omega
                · rw [findW_setW_ne (Ne.symm hc)] at hfw
                  have := H c w hfw
                  rw [cntW_cons, if_neg hc] at this
                  refine ⟨?_, this.2⟩
                  dsimp only
                  rw [if_neg hc]
                  push_cast at this ⊢
                  omega)
              (by
                intro c hfn
                by_cases hc : r0.Waiter = c
                · subst hc
                  rw [hf1] at hfn
                  cases hfn
                · rw [findW_setW_ne (Ne.symm hc)] at hfn
                  have := Hd c hfn
                  rw [cntW_cons, if_neg hc] at this
                  dsimp only
                  rw [if_neg hc]
                  exact ⟨by omega, by rw [this.2]; ring⟩)
            refine ⟨ndq, ?_, ?_⟩
            · intro c w hfw
              have := Hq c w hfw
              rw [cntW_cons]
              dsimp only at this ⊢
              refine ⟨?_, this.2⟩
              by_cases hc : r0.Waiter = c
              · rw [if_pos hc] at this ⊢
                push_cast at this ⊢
                omega
              · rw [if_neg hc] at this ⊢
                push_cast at this ⊢
                omega
            · intro c hfn
              have h3 := Hdq c hfn
              rw [cntW_cons]
              dsimp only at h3 ⊢
              rcases h3 with ⟨h1, h2⟩
              by_cases hc : r0.Waiter = c
              · rw [if_pos hc] at h2 ⊢
                have h4 := hrest c
                exact ⟨by omega, by omega⟩
              · rw [if_neg hc] at h2 ⊢
                exact ⟨by omega, by omega⟩
          · -- wait-any serve: flags change (RefCount preserved), then the
            -- reference is dropped and the registration erased
            rw [if_neg hwa0]
            have hf1 : findW (setW h r0.Waiter
                { w0 with
                    FiredEvent := r0.WaitIndex
                    StillWaiting := false }) r0.Waiter =
                some { w0 with
                        FiredEvent := r0.WaitIndex
                        StillWaiting := false } :=
              findW_setW_self hr0
            have hstep := decRef_remove_acct
              (setW h r0.Waiter
                { w0 with
                    FiredEvent := r0.WaitIndex
                    StillWaiting := false })
              r0.Waiter
              { w0 with FiredEvent := r0.WaitIndex, StillWaiting := false }
              (cntW t) rest
              (by rw [keys_setW]; exact hnd)
              hrest
              (by
                intro c w hfw
                by_cases hc : r0.Waiter = c
                · subst hc
                  rw [hf1] at hfw
                  cases hfw
                  have := H r0.Waiter w0 hr0
                  rw [cntW_cons, if_pos rfl] at this
                  refine ⟨?_, this.2⟩
                  rw [if_pos rfl]
                  dsimp only
                  push_cast at this ⊢
                  omega
                · rw [findW_setW_ne (Ne.symm hc)] at hfw
                  have := H c w hfw
                  rw [cntW_cons, if_neg hc] at this
                  rw [if_neg hc]
                  refine ⟨?_, this.2⟩
                  push_cast at this ⊢
                  omega)
              (by
                intro c hfn
                by_cases hc : r0.Waiter = c
                · subst hc
                  rw [hf1] at hfn
                  cases hfn
                · rw [findW_setW_ne (Ne.symm hc)] at hfn
                  have := Hd c hfn
                  rw [cntW_cons] at this
                  exact this)
              hf1
            cases auto with
            | true =>
              rw [if_pos rfl]
              exact hstep
            | false =>
              rw [if_neg (by simp)]
              exact ih _ rest hstep.1 hrest hstep.2.1 hstep.2.2

theorem regsOf_nil (c : WaiterId) : regsOf [] c = 0 := rfl

theorem regsOf_cons (e : Event) (t : List Event) (c : WaiterId) :
    regsOf (e :: t) c = cntW e.RegisteredWaits c + regsOf t c := by
  simp [regsOf]

theorem regsOf_append (l1 l2 : List Event) (c : WaiterId) :
    regsOf (l1 ++ l2) c = regsOf l1 c + regsOf l2 c := by
  simp [regsOf]

theorem cntW_append (l1 l2 : List RegWait) (c : WaiterId) :
    cntW (l1 ++ l2) c = cntW l1 c + cntW l2 c := by
  simp [cntW, List.countP_append]

theorem regsOf_unlock (l : List Event) (c : WaiterId) :
    regsOf (l.map (fun x => { x with Locked := false })) c = regsOf l c := by
  induction l with
  | nil => rfl
  | cons e t ih =>
    rw [List.map_cons, regsOf_cons, regsOf_cons, ih]

theorem not_mem_keys_of_findW_none {h : Heap} {c : WaiterId}
    (hf : findW h c = none) : c ∉ h.map Prod.fst := by
  induction h with
  | nil => simp
  | cons q t ih =>
    obtain ⟨k, v⟩ := q
    rw [findW] at hf
    by_cases hk : k = c
    · rw [if_pos hk] at hf; cases hf
    · rw [if_neg hk] at hf
      simp only [List.map_cons, List.mem_cons]
      rintro (hh | hh)
      · exact hk hh.symm
      · exact ih hf hh

theorem rcOf_setW_same (h : Heap) (a : WaiterId) (w w' : Wfmo)
    (hf : findW h a = some w) (hrc : w'.RefCount = w.RefCount) (c : WaiterId) :
    rcOf (setW h a w') c = rcOf h c := by
  by_cases hc : a = c
  · subst hc
    simp [rcOf, findW_setW_self hf, hf, hrc]
  · simp [rcOf, findW_setW_ne (Ne.symm hc)]

/-- Transport the accounting clauses along a step that preserves the heap's
key set and every live reference count, and the registration counts. -/
theorem acct_transport (h h' : Heap) (cnt cnt' : WaiterId → Nat)
    (rest : WaiterId → Int)
    (hk : h'.map Prod.fst = h.map Prod.fst)
    (hrc : ∀ c, rcOf h' c = rcOf h c)
    (hcnt : ∀ c, cnt' c = cnt c)
    (hnd : (h.map Prod.fst).Nodup)
    (H : ∀ c w, findW h c = some w →
      w.RefCount = (cnt c : Int) + rest c ∧ 0 < w.RefCount)
    (Hd : ∀ c, findW h c = none → cnt c = 0 ∧ rest c = 0) :
    (h'.map Prod.fst).Nodup ∧
    (∀ c w, findW h' c = some w →
      w.RefCount = (cnt' c : Int) + rest c ∧ 0 < w.RefCount) ∧
    (∀ c, findW h' c = none → cnt' c = 0 ∧ rest c = 0) := by
  refine ⟨by rw [hk]; exact hnd, ?_, ?_⟩
  · intro c w hfw
    have h1 : rcOf h c = some w.RefCount := by
      rw [← hrc c]; simp [rcOf, hfw]
    cases hfc : findW h c with
    | none => simp [rcOf, hfc] at h1
    | some w2 =>
      simp only [rcOf, hfc, Option.map_some', Option.some.injEq] at h1
      have := H c w2 hfc
      rw [hcnt c]
      exact ⟨by rw [← h1]; exact this.1, by rw [← h1]; exact this.2⟩
  · intro c hfn
    have h1 : rcOf h c = none := by
      rw [← hrc c]; simp [rcOf, hfn]
    cases hfc : findW h c with
    | some w2 => simp [rcOf, hfc] at h1
    | none => rw [hcnt c]; exact Hd c hfc

theorem ite_bool_false {α : Sort _} (a b : α) :
    (if (false : Bool) = true then a else b) = b := rfl

theorem ite_bool_true {α : Sort _} (a b : α) :
    (if (true : Bool) = true then a else b) = a := rfl

/-- The lazy registry sweep (`remove_if(..., RemoveExpiredWaitHelper)`)
preserves the reference-count accounting: expired registrations disappear
together with one reference each, live ones survive; no sweep adds a
registration. -/
theorem sweepRegs_acct (t : List RegWait) :
    ∀ (h : Heap) (rest : WaiterId → Int),
      (h.map Prod.fst).Nodup →
      (∀ c, 0 ≤ rest c) →
      (∀ c w, findW h c = some w →
        w.RefCount = (cntW t c : Int) + rest c ∧ 0 < w.RefCount) →
      (∀ c, findW h c = none → cntW t c = 0 ∧ rest c = 0) →
      ((sweepRegs t h).2.map Prod.fst).Nodup ∧
      (∀ c, cntW (sweepRegs t h).1 c ≤ cntW t c) ∧
      (∀ c w, findW (sweepRegs t h).2 c = some w →
        w.RefCount = (cntW (sweepRegs t h).1 c : Int) + rest c ∧
        0 < w.RefCount) ∧
      (∀ c, findW (sweepRegs t h).2 c = none →
        cntW (sweepRegs t h).1 c = 0 ∧ rest c = 0) := by
  induction t with
  | nil =>
    intro h rest hnd hrest H Hd
    exact ⟨hnd, fun c => le_refl _, H, Hd⟩
  | cons r0 t ih =>
    intro h rest hnd hrest H Hd
    rw [sweepRegs]
    simp only [RemoveExpiredWaitHelper]
    cases hr0 : findW h r0.Waiter with
    | none =>
      exact absurd (Hd r0.Waiter hr0).1
        (by rw [cntW_cons, if_pos rfl]; omega)
    | some w0 =>
      dsimp only
      by_cases hsw0 : w0.StillWaiting = true
      · -- coordinator still waiting: keep the registration, heap untouched
        rw [if_pos hsw0]
        dsimp only
        rw [ite_bool_false]
        obtain ⟨ndq, hle, Hq, Hdq⟩ := ih h
          (fun c => rest c + (if r0.Waiter = c then 1 else 0)) hnd
          (fun c => by
            have h1 := hrest c
            dsimp only
            split <;> omega)
          (by
            intro c w hfw
            have := H c w hfw
            rw [cntW_cons] at this
            refine ⟨?_, this.2⟩
            by_cases hc : r0.Waiter = c
            · simp only [hc, eq_self_iff_true, if_true, if_false] at this ⊢
              push_cast at this ⊢
              omega
            · simp only [hc, if_true, if_false] at this ⊢
              push_cast at this ⊢
              omega)
          (by
            intro c hfn
            have := Hd c hfn
            rw [cntW_cons] at this
            dsimp only
            rcases this with ⟨h1, h2⟩
            by_cases hc : r0.Waiter = c
            · rw [if_pos hc] at h1 ⊢
              exact ⟨by omega, by omega⟩
            · rw [if_neg hc] at h1 ⊢
              exact ⟨by omega, by omega⟩)
        refine ⟨ndq, ?_, ?_, ?_⟩
        · intro c
          rw [cntW_cons, cntW_cons]
          have h1 := hle c
          by_cases hc : r0.Waiter = c
          · rw [if_pos hc]; omega
          · rw [if_neg hc]; omega
        · intro c w hfw
          have := Hq c w hfw
          rw [cntW_cons]
          refine ⟨?_, this.2⟩
          by_cases hc : r0.Waiter = c
          · simp only [hc, eq_self_iff_true, if_true, if_false] at this ⊢
            push_cast at this ⊢
            omega
          · simp only [hc, if_true, if_false] at this ⊢
            push_cast at this ⊢
            omega
        · intro c hfn
          have h3 := Hdq c hfn
          rw [cntW_cons]
          rcases h3 with ⟨h1, h2⟩
          by_cases hc : r0.Waiter = c
          · rw [if_pos hc] at h2 ⊢
            have h4 := hrest c
            exact ⟨by omega, by omega⟩
          · rw [if_neg hc] at h2 ⊢
            exact ⟨by omega, by omega⟩
      · -- expired coordinator: drop the reference, erase the registration
        rw [if_neg hsw0]
        dsimp only
        rw [ite_bool_true]
        have hstep := decRef_remove_acct h r0.Waiter w0 (cntW t) rest hnd
          hrest
          (by
            intro c w hfw
            have := H c w hfw
            rw [cntW_cons] at this
            refine ⟨?_, this.2⟩
            by_cases hc : r0.Waiter = c
            · simp only [hc, eq_self_iff_true, if_true, if_false] at this ⊢
              push_cast at this ⊢
              omega
            · simp only [hc, if_true, if_false] at this ⊢
              push_cast at this ⊢
              omega)
          (by
            intro c hfn
            have := Hd c hfn
            rw [cntW_cons] at this
            exact ⟨this.1, this.2⟩)
          hr0
        obtain ⟨ndq, hle, Hq, Hdq⟩ := ih _ rest hstep.1 hrest hstep.2.1
          hstep.2.2
        refine ⟨ndq, ?_, Hq, Hdq⟩
        intro c
        rw [cntW_cons]
        have h1 := hle c
        by_cases hc : r0.Waiter = c
        · rw [if_pos hc]; omega
        · rw [if_neg hc]; omega

/-- The `ResetEvent` registry walk preserves the reference-count accounting:
cleanup of an exited coordinator drops its reference with its registration,
the wait-all claim undo changes only `EventsLeft`, everything else passes
through. -/
theorem resetLoop_acct (t : List RegWait) :
    ∀ (h : Heap) (rest : WaiterId → Int),
      (h.map Prod.fst).Nodup →
      (∀ c, 0 ≤ rest c) →
      (∀ c w, findW h c = some w →
        w.RefCount = (cntW t c : Int) + rest c ∧ 0 < w.RefCount) →
      (∀ c, findW h c = none → cntW t c = 0 ∧ rest c = 0) →
      ((resetLoop t h).2.map Prod.fst).Nodup ∧
      (∀ c w, findW (resetLoop t h).2 c = some w →
        w.RefCount = (cntW (resetLoop t h).1 c : Int) + rest c ∧
        0 < w.RefCount) ∧
      (∀ c, findW (resetLoop t h).2 c = none →
        cntW (resetLoop t h).1 c = 0 ∧ rest c = 0) := by
  induction t with
  | nil =>
    intro h rest hnd hrest H Hd
    exact ⟨hnd, H, Hd⟩
  | cons r0 t ih =>
    intro h rest hnd hrest H Hd
    rw [resetLoop]
    cases hr0 : findW h r0.Waiter with
    | none =>
      exact absurd (Hd r0.Waiter hr0).1
        (by rw [cntW_cons, if_pos rfl]; omega)
    | some w0 =>
      dsimp only
      by_cases hsw0 : w0.StillWaiting = false
      · -- expired coordinator: drop the reference, erase the registration
        rw [if_pos hsw0]
        have hstep := decRef_remove_acct h r0.Waiter w0 (cntW t) rest hnd
          hrest
          (by
            intro c w hfw
            have := H c w hfw
            rw [cntW_cons] at this
            refine ⟨?_, this.2⟩
            by_cases hc : r0.Waiter = c
            · simp only [hc, eq_self_iff_true, if_true, if_false] at this ⊢
              push_cast at this ⊢
              omega
            · simp only [hc, if_true, if_false] at this ⊢
              push_cast at this ⊢
              omega)
          (by
            intro c hfn
            have := Hd c hfn
            rw [cntW_cons] at this
            exact ⟨this.1, this.2⟩)
          hr0
        exact ih _ rest hstep.1 hrest hstep.2.1 hstep.2.2
      · rw [if_neg hsw0]
        by_cases hsb : (r0.Signalled && w0.WaitAll) = true
        · -- still-waiting wait-all claim undo: only EventsLeft changes,
          -- the registration stays with its flag cleared
          rw [if_pos hsb]
          have hf1 : findW (setW h r0.Waiter
              { w0 with EventsLeft := w0.EventsLeft + 1 }) r0.Waiter =
              some { w0 with EventsLeft := w0.EventsLeft + 1 } :=
            findW_setW_self hr0
          obtain ⟨ndq, Hq, Hdq⟩ := ih
            (setW h r0.Waiter { w0 with EventsLeft := w0.EventsLeft + 1 })
            (fun c => rest c + (if r0.Waiter = c then 1 else 0))
            (by rw [keys_setW]; exact hnd)
            (fun c => by
              have h1 := hrest c
              dsimp only
              split <;> omega)
            (by
              intro c w hfw
              by_cases hc : r0.Waiter = c
              · subst hc
                rw [hf1] at hfw
                cases hfw
                have := H r0.Waiter w0 hr0
                rw [cntW_cons, if_pos rfl] at this
                refine ⟨?_, this.2⟩
                dsimp only
                rw [if_pos rfl]
                push_cast at this ⊢
                omega
              · rw [findW_setW_ne (Ne.symm hc)] at hfw
                have := H c w hfw
                rw [cntW_cons, if_neg hc] at this
                refine ⟨?_, this.2⟩
                dsimp only
                rw [if_neg hc]
                push_cast at this ⊢
                omega)
            (by
              intro c hfn
              by_cases hc : r0.Waiter = c
              · subst hc
                rw [hf1] at hfn
                cases hfn
              · rw [findW_setW_ne (Ne.symm hc)] at hfn
                have := Hd c hfn
                rw [cntW_cons, if_neg hc] at this
                dsimp only
                rw [if_neg hc]
                exact ⟨by omega, by rw [this.2]; ring⟩)
          refine ⟨ndq, ?_, ?_⟩
          · intro c w hfw
            have := Hq c w hfw
            rw [cntW_cons]
            dsimp only at this ⊢
            refine ⟨?_, this.2⟩
            by_cases hc : r0.Waiter = c
            · rw [if_pos hc] at this ⊢
              push_cast at this ⊢
              omega
            · rw [if_neg hc] at this ⊢
              push_cast at this ⊢
              omega
          · intro c hfn
            have h3 := Hdq c hfn
            rw [cntW_cons]
            dsimp only at h3 ⊢
            rcases h3 with ⟨h1, h2⟩
            by_cases hc : r0.Waiter = c
            · rw [if_pos hc] at h2 ⊢
              have h4 := hrest c
              exact ⟨by omega, by omega⟩
            · rw [if_neg hc] at h2 ⊢
              exact ⟨by omega, by omega⟩
        · -- anything else: the registration and the heap pass through
          rw [if_neg hsb]
          obtain ⟨ndq, Hq, Hdq⟩ := ih h
            (fun c => rest c + (if r0.Waiter = c then 1 else 0)) hnd
            (fun c => by
              have h1 := hrest c
              dsimp only
              split <;> omega)
            (by
              intro c w hfw
              have := H c w hfw
              rw [cntW_cons] at this
              refine ⟨?_, this.2⟩
              by_cases hc : r0.Waiter = c
              · simp only [hc, eq_self_iff_true, if_true, if_false] at this ⊢
                push_cast at this ⊢
                omega
              · simp only [hc, if_true, if_false] at this ⊢
                push_cast at this ⊢
                omega)
            (by
              intro c hfn
              have := Hd c hfn
              rw [cntW_cons] at this
              dsimp only
              rcases this with ⟨h1, h2⟩
              by_cases hc : r0.Waiter = c
              · rw [if_pos hc] at h1 ⊢
                exact ⟨by omega, by omega⟩
              · rw [if_neg hc] at h1 ⊢
                exact ⟨by omega, by omega⟩)
          refine ⟨ndq, ?_, ?_⟩
          · intro c w hfw
            have := Hq c w hfw
            rw [cntW_cons]
            refine ⟨?_, this.2⟩
            by_cases hc : r0.Waiter = c
            · simp only [hc, eq_self_iff_true, if_true, if_false] at this ⊢
              push_cast at this ⊢
              omega
            · simp only [hc, if_true, if_false] at this ⊢
              push_cast at this ⊢
              omega
          · intro c hfn
            have h3 := Hdq c hfn
            rw [cntW_cons]
            rcases h3 with ⟨h1, h2⟩
            by_cases hc : r0.Waiter = c
            · rw [if_pos hc] at h2 ⊢
              have h4 := hrest c
              exact ⟨by omega, by omega⟩
            · rw [if_neg hc] at h2 ⊢
              exact ⟨by omega, by omega⟩

/-- The auto-reset drain changes only `EventsLeft` fields and `Signalled`
flags: heap keys, reference counts and registration counts are untouched. -/
theorem drainRegs_acct_frame (t : List RegWait) :
    ∀ h : Heap,
      ((drainRegs t h).2.map Prod.fst = h.map Prod.fst) ∧
      (∀ c, rcOf (drainRegs t h).2 c = rcOf h c) ∧
      (∀ c, cntW (drainRegs t h).1 c = cntW t c) := by
  induction t with
  | nil => intro h; exact ⟨rfl, fun c => rfl, fun c => rfl⟩
  | cons r0 t ih =>
    intro h
    rw [drainRegs]
    cases hr0 : findW h r0.Waiter with
    | none =>
      dsimp only
      obtain ⟨k1, k2, k3⟩ := ih h
      exact ⟨k1, k2, fun c => by rw [cntW_cons, cntW_cons, k3]⟩
    | some w0 =>
      dsimp only
      by_cases hsig : (r0.Signalled && w0.WaitAll) = true
      · rw [if_pos hsig]
        obtain ⟨k1, k2, k3⟩ :=
          ih (setW h r0.Waiter { w0 with EventsLeft := w0.EventsLeft + 1 })
        refine ⟨by rw [k1, keys_setW], ?_, ?_⟩
        · intro c
          rw [k2]
          exact rcOf_setW_same h r0.Waiter w0
            { w0 with EventsLeft := w0.EventsLeft + 1 } hr0 rfl c
        · intro c
          rw [cntW_cons, cntW_cons, k3]
      · rw [if_neg hsig]
        obtain ⟨k1, k2, k3⟩ := ih h
        exact ⟨k1, k2, fun c => by rw [cntW_cons, cntW_cons, k3]⟩

/-- The locked inner wait changes no heap key, no reference count and no
registration count (the auto-reset drain keeps every registration). -/
theorem unlockedWait_acct_frame (e : Event) (h : Heap) (ms : Nat) :
    ((UnlockedWaitForEvent e h ms).2.2.map Prod.fst = h.map Prod.fst) ∧
    (∀ c, rcOf (UnlockedWaitForEvent e h ms).2.2 c = rcOf h c) ∧
    (∀ c, cntW (UnlockedWaitForEvent e h ms).2.1.RegisteredWaits c =
      cntW e.RegisteredWaits c) := by
  simp only [UnlockedWaitForEvent]
  by_cases hst : e.State = false
  · rw [if_pos hst]
    by_cases h0 : ms = 0
    · rw [if_pos h0]; exact ⟨rfl, fun c => rfl, fun c => rfl⟩
    · rw [if_neg h0]
      by_cases hinf : ms = WAIT_INFINITE
      · rw [if_pos hinf]; exact ⟨rfl, fun c => rfl, fun c => rfl⟩
      · rw [if_neg hinf]; exact ⟨rfl, fun c => rfl, fun c => rfl⟩
  · rw [if_neg hst]
    by_cases har : e.AutoReset = true
    · rw [if_pos har]
      obtain ⟨k1, k2, k3⟩ := drainRegs_acct_frame e.RegisteredWaits h
      exact ⟨k1, k2, fun c => k3 c⟩
    · rw [if_neg har]; exact ⟨rfl, fun c => rfl, fun c => rfl⟩

/-- The consume loop of the wait-all claim step preserves heap keys,
reference counts and registration counts. -/
theorem consumeAll_acct_frame (l : List Event) :
    ∀ h : Heap,
      ((consumeAll l h).2.map Prod.fst = h.map Prod.fst) ∧
      (∀ c, rcOf (consumeAll l h).2 c = rcOf h c) ∧
      (∀ c, regsOf (consumeAll l h).1 c = regsOf l c) := by
  induction l with
  | nil => intro h; exact ⟨rfl, fun c => rfl, fun c => rfl⟩
  | cons e t ih =>
    intro h
    rw [consumeAll]
    obtain ⟨k1, k2, k3⟩ := unlockedWait_acct_frame e h 0
    obtain ⟨m1, m2, m3⟩ := ih (UnlockedWaitForEvent e h 0).2.2
    refine ⟨by dsimp only; rw [m1, k1], fun c => by dsimp only; rw [m2, k2],
      fun c => ?_⟩
    dsimp only
    rw [regsOf_cons, regsOf_cons, m3]
    dsimp only
    rw [k3 c]

/-- The try-lock cascade changes only `Locked` flags on the events it gives
back (and, on full success, runs the consume loop): heap keys, reference
counts and registration counts are preserved, and the returned events carry
exactly the registrations of the scanned ones. -/
theorem claimScan_acct_frame (evsr : List Event) :
    ∀ (locked : List Event) (h : Heap) (b : Bool) (evs' : List Event)
      (h' : Heap),
      claimScan h locked evsr = some (b, evs', h') →
      (h'.map Prod.fst = h.map Prod.fst) ∧
      (∀ c, rcOf h' c = rcOf h c) ∧
      (∀ c, regsOf evs' c = regsOf locked.reverse c + regsOf evsr c) := by
  induction evsr with
  | nil =>
    intro locked h b evs' h' hcs
    rw [claimScan] at hcs
    simp only [Option.some.injEq, Prod.mk.injEq] at hcs
    obtain ⟨hb, hev, hh⟩ := hcs
    subst hev
    subst hh
    obtain ⟨k1, k2, k3⟩ := consumeAll_acct_frame locked.reverse h
    exact ⟨k1, k2, fun c => by rw [k3]; simp [regsOf]⟩
  | cons e rest ih =>
    intro locked h b evs' h' hcs
    rw [claimScan] at hcs
    by_cases hl : e.Locked = true
    · rw [if_pos hl] at hcs; cases hcs
    · rw [if_neg hl] at hcs
      dsimp only at hcs
      by_cases hst : e.State = false
      · rw [if_pos hst] at hcs
        simp only [Option.some.injEq, Prod.mk.injEq] at hcs
        obtain ⟨hb, hev, hh⟩ := hcs
        subst hev
        subst hh
        refine ⟨rfl, fun c => rfl, fun c => ?_⟩
        rw [regsOf_append, regsOf_unlock, regsOf_cons, regsOf_cons]
      · rw [if_neg hst] at hcs
        obtain ⟨k1, k2, k3⟩ := ih _ _ _ _ _ hcs
        refine ⟨k1, k2, fun c => ?_⟩
        rw [k3 c, List.reverse_cons, regsOf_append, regsOf_cons, regsOf_cons,
          regsOf_nil]
        dsimp only
        omega

/-- The wait loop body preserves heap keys, reference counts and
registration counts (the timeout paths change nothing; the claim path is
covered by the scan and consume frames). -/
theorem wfmoWaitStep_acct_frame (wa : Bool) (wid : WaiterId) (ms : Nat)
    (evs : List Event) (h : Heap) (done : Bool) :
    ((wfmoWaitStep wa wid ms evs h done).2.2.map Prod.fst =
      h.map Prod.fst) ∧
    (∀ c, rcOf (wfmoWaitStep wa wid ms evs h done).2.2 c = rcOf h c) ∧
    (∀ c, regsOf (wfmoWaitStep wa wid ms evs h done).2.1 c =
      regsOf evs c) := by
  simp only [wfmoWaitStep]
  by_cases hdone : done = true
  · rw [if_pos hdone]; exact ⟨rfl, fun c => rfl, fun c => rfl⟩
  · rw [if_neg hdone]
    by_cases hwa : (!wa) = true
    · rw [if_pos hwa]
      by_cases h0 : ms = 0
      · rw [if_pos h0]; exact ⟨rfl, fun c => rfl, fun c => rfl⟩
      · rw [if_neg h0]
        by_cases hinf : ms = WAIT_INFINITE
        · rw [if_pos hinf]; exact ⟨rfl, fun c => rfl, fun c => rfl⟩
        · rw [if_neg hinf]; exact ⟨rfl, fun c => rfl, fun c => rfl⟩
    · rw [if_neg hwa]
      by_cases hel : ((findW h wid).elim false fun w =>
          decide (w.EventsLeft = 0)) = true
      · rw [if_pos hel]
        cases htc : tryClaimAll evs h with
        | none => exact ⟨rfl, fun c => rfl, fun c => rfl⟩
        | some trip =>
          obtain ⟨bb, evs', h'⟩ := trip
          have hframe := claimScan_acct_frame evs [] h bb evs' h' htc
          have hreg : ∀ c, regsOf evs' c = regsOf evs c := by
            intro c
            rw [(hframe.2.2) c]
            simp [regsOf]
          cases bb with
          | true =>
            exact ⟨hframe.1, hframe.2.1, hreg⟩
          | false =>
            dsimp only
            by_cases h0 : ms = 0
            · rw [if_pos h0]; exact ⟨hframe.1, hframe.2.1, hreg⟩
            · rw [if_neg h0]
              by_cases hinf : ms = WAIT_INFINITE
              · rw [if_pos hinf]; exact ⟨hframe.1, hframe.2.1, hreg⟩
              · rw [if_neg hinf]; exact ⟨hframe.1, hframe.2.1, hreg⟩
      · rw [if_neg hel]
        by_cases h0 : ms = 0
        · rw [if_pos h0]; exact ⟨rfl, fun c => rfl, fun c => rfl⟩
        · rw [if_neg h0]
          by_cases hinf : ms = WAIT_INFINITE
          · rw [if_pos hinf]; exact ⟨rfl, fun c => rfl, fun c => rfl⟩
          · rw [if_neg hinf]; exact ⟨rfl, fun c => rfl, fun c => rfl⟩

theorem cntW_singleton (r : RegWait) (c : WaiterId) :
    cntW [r] c = if r.Waiter = c then 1 else 0 := by
  simp [cntW, List.countP_cons]

theorem rcOf_some_elim {h1 h2 : Heap} {c : WaiterId} {w : Wfmo}
    (heq : rcOf h1 c = rcOf h2 c) (hf : findW h1 c = some w) :
    ∃ w2, findW h2 c = some w2 ∧ w2.RefCount = w.RefCount := by
  have h9 : rcOf h2 c = some w.RefCount := by
    rw [← heq]; simp [rcOf, hf]
  cases hfc : findW h2 c with
  | none => simp [rcOf, hfc] at h9
  | some w2 =>
    simp only [rcOf, hfc, Option.map_some', Option.some.injEq] at h9
    exact ⟨w2, rfl, h9⟩

theorem rcOf_none_elim {h1 h2 : Heap} {c : WaiterId}
    (heq : rcOf h1 c = rcOf h2 c) (hf : findW h1 c = none) :
    findW h2 c = none := by
  have h9 : rcOf h2 c = none := by
    rw [← heq]; simp [rcOf, hf]
  cases hfc : findW h2 c with
  | some w2 => simp [rcOf, hfc] at h9
  | none => rfl

/-- The registration loop of `WaitForMultipleEvents` preserves the
reference-count accounting.  The freshly allocated coordinator `wid` holds
`rest wid` shares on entry (strictly more than one per event yet to visit);
the loop converts one pending share into a registration for every event it
registers with (`k` of them), leaves `skipped_refs` untouched when it walks
the whole array, and on a wait-any completion at relative position `k` adds
`count - (i + k)` to `skipped_refs`.  Every other coordinator's accounts are
preserved (expired registrations swept together with their references). -/
theorem regLoop_acct (wa : Bool) (wid : WaiterId) (count : Int)
    (evs : List Event) :
    ∀ (i : Nat) (h : Heap) (sr es : Int) (rest : WaiterId → Int),
      (h.map Prod.fst).Nodup →
      (∀ c, 0 ≤ rest c) →
      ((evs.length : Int) < rest wid) →
      (∀ c w, findW h c = some w →
        w.RefCount = (regsOf evs c : Int) + rest c ∧ 0 < w.RefCount) →
      (∀ c, findW h c = none → regsOf evs c = 0 ∧ rest c = 0) →
      regsOf evs wid = 0 →
      ∃ k : Nat, k ≤ evs.length ∧
        regsOf (regLoop wa wid count evs i h sr es false).1 wid = k ∧
        ((regLoop wa wid count evs i h sr es false).2.2.2.2 = false →
          k = evs.length ∧
          (regLoop wa wid count evs i h sr es false).2.2.1 = sr) ∧
        ((regLoop wa wid count evs i h sr es false).2.2.2.2 = true →
          (regLoop wa wid count evs i h sr es false).2.2.1 =
            sr + (count - ((i : Int) + (k : Int)))) ∧
        (((regLoop wa wid count evs i h sr es false).2.1.map
          Prod.fst).Nodup) ∧
        (∀ c w,
          findW (regLoop wa wid count evs i h sr es false).2.1 c = some w →
          w.RefCount =
            (regsOf (regLoop wa wid count evs i h sr es false).1 c : Int) +
            (if c = wid then rest c - (k : Int) else rest c) ∧
          0 < w.RefCount) ∧
        (∀ c,
          findW (regLoop wa wid count evs i h sr es false).2.1 c = none →
          regsOf (regLoop wa wid count evs i h sr es false).1 c = 0 ∧
          (if c = wid then rest c - (k : Int) else rest c) = 0) := by
  induction evs with
  | nil =>
    intro i h sr es rest hnd hrest hbud H Hd hw0
    dsimp only [regLoop]
    refine ⟨0, Nat.zero_le _, rfl, ?_, ?_, hnd, ?_, ?_⟩
    · intro hdd
      exact ⟨rfl, rfl⟩
    · intro hdd
      exact absurd hdd (by decide)
    · intro c w hfw
      have h9 := H c w hfw
      refine ⟨?_, h9.2⟩
      by_cases hc : c = wid
      · rw [if_pos hc]
        push_cast at h9 ⊢
        omega
      · rw [if_neg hc]
        exact h9.1
    · intro c hfn
      have h9 := Hd c hfn
      refine ⟨h9.1, ?_⟩
      by_cases hc : c = wid
      · rw [if_pos hc]
        have h10 := h9.2
        push_cast
        omega
      · rw [if_neg hc]
        exact h9.2
  | cons e t ih =>
    intro i h sr es rest hnd hrest hbud H Hd hw0
    push_cast [List.length_cons] at hbud
    rw [regsOf_cons] at hw0
    have hcw0 : cntW e.RegisteredWaits wid = 0 := by omega
    have hw0t : regsOf t wid = 0 := by omega
    rw [regLoop]
    dsimp only
    rw [ite_bool_false]
    generalize hP : (if (!wa && !e.AutoReset && e.State) = true
        then (e.RegisteredWaits, h)
        else sweepRegs e.RegisteredWaits h) = P
    have hPfacts : (P.2.map Prod.fst).Nodup ∧
        (∀ c, cntW P.1 c ≤ cntW e.RegisteredWaits c) ∧
        (∀ c w, findW P.2 c = some w →
          w.RefCount = (cntW P.1 c : Int) +
            ((regsOf t c : Int) + rest c) ∧ 0 < w.RefCount) ∧
        (∀ c, findW P.2 c = none →
          cntW P.1 c = 0 ∧ (regsOf t c : Int) + rest c = 0) := by
      by_cases hsk : (!wa && !e.AutoReset && e.State) = true
      · rw [if_pos hsk] at hP
        subst hP
        refine ⟨hnd, fun c => le_refl _, ?_, ?_⟩
        · intro c w hfw
          have h9 := H c w hfw
          rw [regsOf_cons] at h9
          refine ⟨?_, h9.2⟩
          dsimp only
          push_cast at h9 ⊢
          omega
        · intro c hfn
          have h9 := Hd c hfn
          rw [regsOf_cons] at h9
          dsimp only
          have h11 := hrest c
          exact ⟨by omega, by omega⟩
      · rw [if_neg hsk] at hP
        subst hP
        have h9 := sweepRegs_acct e.RegisteredWaits h
          (fun c => (regsOf t c : Int) + rest c) hnd
          (fun c => by
            dsimp only
            have h11 := hrest c
            omega)
          (by
            intro c w hfw
            have h10 := H c w hfw
            rw [regsOf_cons] at h10
            refine ⟨?_, h10.2⟩
            dsimp only
            push_cast at h10 ⊢
            omega)
          (by
            intro c hfn
            have h10 := Hd c hfn
            rw [regsOf_cons] at h10
            dsimp only
            have h11 := hrest c
            exact ⟨by omega, by omega⟩)
        exact ⟨h9.1, h9.2.1, h9.2.2.1, h9.2.2.2⟩
    obtain ⟨nd1, hle1, H1, Hd1⟩ := hPfacts
    have hcs0 : cntW P.1 wid = 0 := by
      have h9 := hle1 wid
      omega
    generalize hP2 : (if (!wa && !e.AutoReset && e.State) = true
        then ({ e with RegisteredWaits := P.1 }, P.2)
        else ((UnlockedWaitForEvent { e with RegisteredWaits := P.1 }
                P.2 0).2.1,
              (UnlockedWaitForEvent { e with RegisteredWaits := P.1 }
                P.2 0).2.2)) = P2
    have hP2facts : (P2.2.map Prod.fst = P.2.map Prod.fst) ∧
        (∀ c, rcOf P2.2 c = rcOf P.2 c) ∧
        (∀ c, cntW P2.1.RegisteredWaits c = cntW P.1 c) := by
      by_cases hsk : (!wa && !e.AutoReset && e.State) = true
      · rw [if_pos hsk] at hP2
        subst hP2
        exact ⟨rfl, fun c => rfl, fun c => rfl⟩
      · rw [if_neg hsk] at hP2
        subst hP2
        exact unlockedWait_acct_frame { e with RegisteredWaits := P.1 } P.2 0
    obtain ⟨u1, u2, u3⟩ := hP2facts
    have hreg : ∀ es' : Int, ∃ k : Nat, k ≤ (e :: t).length ∧
        regsOf ({ e with RegisteredWaits :=
            P.1 ++ [⟨wid, (i : Int), e.State⟩] } ::
          (regLoop wa wid count t (i + 1) P.2 sr es' false).1) wid = k ∧
        ((regLoop wa wid count t (i + 1) P.2 sr es' false).2.2.2.2 = false →
          k = (e :: t).length ∧
          (regLoop wa wid count t (i + 1) P.2 sr es' false).2.2.1 = sr) ∧
        ((regLoop wa wid count t (i + 1) P.2 sr es' false).2.2.2.2 = true →
          (regLoop wa wid count t (i + 1) P.2 sr es' false).2.2.1 =
            sr + (count - ((i : Int) + (k : Int)))) ∧
        (((regLoop wa wid count t (i + 1) P.2 sr
          es' false).2.1.map Prod.fst).Nodup) ∧
        (∀ c w,
          findW (regLoop wa wid count t (i + 1) P.2 sr es' false).2.1 c =
            some w →
          w.RefCount =
            (regsOf ({ e with RegisteredWaits :=
                P.1 ++ [⟨wid, (i : Int), e.State⟩] } ::
              (regLoop wa wid count t (i + 1) P.2 sr es' false).1) c : Int) +
            (if c = wid then rest c - (k : Int) else rest c) ∧
          0 < w.RefCount) ∧
        (∀ c,
          findW (regLoop wa wid count t (i + 1) P.2 sr es' false).2.1 c =
            none →
          regsOf ({ e with RegisteredWaits :=
              P.1 ++ [⟨wid, (i : Int), e.State⟩] } ::
            (regLoop wa wid count t (i + 1) P.2 sr es' false).1) c = 0 ∧
          (if c = wid then rest c - (k : Int) else rest c) = 0) := by
      intro es'
      obtain ⟨k', h1, h2, h3, h4, h5, h6, h7⟩ := ih (i + 1) P.2 sr es'
        (fun c => (cntW P.1 c : Int) + rest c) nd1
        (fun c => by
          dsimp only
          have h11 := hrest c
          omega)
        (by
          dsimp only
          omega)
        (by
          intro c w hfw
          have h9 := H1 c w hfw
          dsimp only
          refine ⟨?_, h9.2⟩
          push_cast at h9 ⊢
          omega)
        (by
          intro c hfn
          have h9 := Hd1 c hfn
          dsimp only
          have h11 := hrest c
          exact ⟨by omega, by omega⟩)
        hw0t
      refine ⟨k' + 1, ?_, ?_, ?_, ?_, h5, ?_, ?_⟩
      · simp only [List.length_cons]
        omega
      · rw [regsOf_cons, cntW_append, cntW_singleton]
        dsimp only
        rw [if_pos rfl]
        omega
      · intro hdd
        obtain ⟨h8, h9⟩ := h3 hdd
        refine ⟨?_, h9⟩
        simp only [List.length_cons]
        omega
      · intro hdd
        have h8 := h4 hdd
        push_cast at h8 ⊢
        omega
      · intro c w hfww
        have h9 := h6 c w hfww
        refine ⟨?_, h9.2⟩
        rw [regsOf_cons, cntW_append, cntW_singleton]
        dsimp only
        by_cases hc : c = wid
        · subst hc
          rw [if_pos rfl, if_pos rfl]
          rw [if_pos rfl] at h9
          have h10 := h9.1
          push_cast at h10 ⊢
          omega
        · rw [if_neg (fun hh => hc hh.symm), if_neg hc]
          rw [if_neg hc] at h9
          have h10 := h9.1
          push_cast at h10 ⊢
          omega
      · intro c hfn
        have h9 := h7 c hfn
        rw [regsOf_cons, cntW_append, cntW_singleton]
        dsimp only
        by_cases hc : c = wid
        · subst hc
          rw [if_pos rfl] at h9
          rw [if_pos rfl, if_pos rfl]
          exfalso
          have h11 := h9.2
          omega
        · rw [if_neg hc] at h9
          rw [if_neg (fun hh => hc hh.symm), if_neg hc]
          have h11 := hrest c
          exact ⟨by omega, by omega⟩
    by_cases hsg : ((!wa && !e.AutoReset && e.State) || e.State) = true
    · rw [if_pos hsg]
      by_cases hwa : wa = true
      · rw [if_pos hwa]
        exact hreg (es + 1)
      · -- wait-any completion: record the fired index, keep the rest
        rw [if_neg hwa]
        cases hfw : findW P2.2 wid with
        | none =>
          exfalso
          have h9 := rcOf_none_elim (u2 wid) hfw
          have h10 := Hd1 wid h9
          have h11 := hrest wid
          omega
        | some w1 =>
          dsimp only
          refine ⟨0, Nat.zero_le _, ?_, ?_, ?_, ?_, ?_, ?_⟩
          · rw [regsOf_cons, u3]
            omega
          · intro hdd
            exact nomatch hdd
          · intro hdd
            push_cast
            ring
          · rw [keys_setW, u1]
            exact nd1
          · intro c w hfww
            by_cases hc : c = wid
            · subst hc
              rw [findW_setW_self hfw] at hfww
              cases hfww
              obtain ⟨w2, hfg, hrc⟩ := rcOf_some_elim (u2 c) hfw
              have h10 := H1 c w2 hfg
              rw [if_pos rfl, regsOf_cons, u3]
              dsimp only
              refine ⟨?_, ?_⟩
              · have h12 := h10.1
                push_cast at h12 ⊢
                omega
              · have h11 := h10.2
                omega
            · rw [findW_setW_ne hc] at hfww
              obtain ⟨w2, hfg, hrc⟩ := rcOf_some_elim (u2 c) hfww
              have h10 := H1 c w2 hfg
              rw [if_neg hc, regsOf_cons, u3]
              refine ⟨?_, ?_⟩
              · have h12 := h10.1
                push_cast at h12 ⊢
                omega
              · have h11 := h10.2
                omega
          · intro c hfn
            by_cases hc : c = wid
            · subst hc
              rw [findW_setW_self hfw] at hfn
              exact nomatch hfn
            · rw [findW_setW_ne hc] at hfn
              have h9 := rcOf_none_elim (u2 c) hfn
              have h10 := Hd1 c h9
              rw [if_neg hc, regsOf_cons, u3]
              have h11 := hrest c
              exact ⟨by omega, by omega⟩
    · rw [if_neg hsg]
      exact hreg es

/-- `SetEvent` preserves the reference-count invariant (with the walked
event in front of the other events' registries). -/
theorem setEvent_acct (e : Event) (others : List Event) (h : Heap)
    (p : WaiterId → Int) (hacc : RefAcct h (e :: others) p) :
    RefAcct (SetEvent e h).2.1 ((SetEvent e h).1 :: others) p := by
  unfold RefAcct at hacc
  obtain ⟨hnd, H, Hd, hp⟩ := hacc
  have hloop := setLoop_acct e.AutoReset e.RegisteredWaits h
    (fun c => (regsOf others c : Int) + p c) hnd
    (fun c => by
      dsimp only
      have h11 := hp c
      omega)
    (by
      intro c w hfw
      have h9 := H c w hfw
      rw [regsOf_cons] at h9
      refine ⟨?_, h9.2⟩
      dsimp only
      push_cast at h9 ⊢
      omega)
    (by
      intro c hfn
      have h9 := Hd c hfn
      rw [regsOf_cons] at h9
      dsimp only
      have h11 := hp c
      exact ⟨by omega, by omega⟩)
  obtain ⟨nd1, H1, Hd1⟩ := hloop
  unfold RefAcct
  simp only [SetEvent]
  by_cases hcons : (setLoop e.AutoReset e.RegisteredWaits h).2.2.1 = true
  · rw [if_pos hcons]
    dsimp only
    refine ⟨nd1, ?_, ?_, hp⟩
    · intro c w hfw
      have h9 := H1 c w hfw
      refine ⟨?_, h9.2⟩
      rw [regsOf_cons]
      dsimp only
      push_cast at h9 ⊢
      omega
    · intro c hfn
      have h9b : cntW (setLoop e.AutoReset e.RegisteredWaits h).1 c = 0 ∧
          (regsOf others c : Int) + p c = 0 := Hd1 c hfn
      rw [regsOf_cons]
      dsimp only
      have h11 := hp c
      exact ⟨by omega, by omega⟩
  · rw [if_neg hcons]
    dsimp only
    refine ⟨nd1, ?_, ?_, hp⟩
    · intro c w hfw
      have h9 := H1 c w hfw
      refine ⟨?_, h9.2⟩
      rw [regsOf_cons]
      dsimp only
      push_cast at h9 ⊢
      omega
    · intro c hfn
      have h9b : cntW (setLoop e.AutoReset e.RegisteredWaits h).1 c = 0 ∧
          (regsOf others c : Int) + p c = 0 := Hd1 c hfn
      rw [regsOf_cons]
      dsimp only
      have h11 := hp c
      exact ⟨by omega, by omega⟩

/-- `ResetEvent` preserves the reference-count invariant. -/
theorem resetEvent_acct (e : Event) (others : List Event) (h : Heap)
    (p : WaiterId → Int) (hacc : RefAcct h (e :: others) p) :
    RefAcct (ResetEvent e h).2 ((ResetEvent e h).1 :: others) p := by
  unfold RefAcct at hacc
  obtain ⟨hnd, H, Hd, hp⟩ := hacc
  have hloop := resetLoop_acct e.RegisteredWaits h
    (fun c => (regsOf others c : Int) + p c) hnd
    (fun c => by
      dsimp only
      have h11 := hp c
      omega)
    (by
      intro c w hfw
      have h9 := H c w hfw
      rw [regsOf_cons] at h9
      refine ⟨?_, h9.2⟩
      dsimp only
      push_cast at h9 ⊢
      omega)
    (by
      intro c hfn
      have h9 := Hd c hfn
      rw [regsOf_cons] at h9
      dsimp only
      have h11 := hp c
      exact ⟨by omega, by omega⟩)
  obtain ⟨nd1, H1, Hd1⟩ := hloop
  unfold RefAcct
  simp only [ResetEvent]
  refine ⟨nd1, ?_, ?_, hp⟩
  · intro c w hfw
    have h9 := H1 c w hfw
    refine ⟨?_, h9.2⟩
    rw [regsOf_cons]
    dsimp only
    push_cast at h9 ⊢
    omega
  · intro c hfn
    have h9b : cntW (resetLoop e.RegisteredWaits h).1 c = 0 ∧
        (regsOf others c : Int) + p c = 0 := Hd1 c hfn
    rw [regsOf_cons]
    dsimp only
    have h11 := hp c
    exact ⟨by omega, by omega⟩

/-- A returning `WaitForMultipleEvents` call on a fresh allocation id
preserves the reference-count invariant with the same pending shares: the
`1 + count` initial references are fully accounted for — `k` became
registrations, `1 + skipped_refs` are dropped by the exit decrement, and
afterwards the coordinator (if it still exists) holds exactly one reference
per registration still pointing at it. -/
theorem wfme_acct (evs : List Event) (wa : Bool) (ms : Nat) (h : Heap)
    (wid : WaiterId) (p : WaiterId → Int) (res : Int × Int × List Event × Heap)
    (hfresh : findW h wid = none) (hacc : RefAcct h evs p)
    (hcall : WaitForMultipleEvents evs wa ms h wid = some res) :
    RefAcct res.2.2.2 res.2.2.1 p ∧
    (∀ w, findW res.2.2.2 wid = some w →
      w.RefCount = (regsOf res.2.2.1 wid : Int)) := by
  unfold RefAcct at hacc
  obtain ⟨hnd, H, Hd, hp⟩ := hacc
  have hpw : p wid = 0 := (Hd wid hfresh).2
  have hrw : regsOf evs wid = 0 := (Hd wid hfresh).1
  have hkeys : wid ∉ h.map Prod.fst := not_mem_keys_of_findW_none hfresh
  obtain ⟨q1, hq⟩ : ∃ x, regLoop wa wid ((evs.length : Int)) evs 0
      ((wid, initWfmo wa ((evs.length : Int))) :: h) 0 0 false = x := ⟨_, rfl⟩
  have hrl := regLoop_acct wa wid ((evs.length : Int)) evs 0
    ((wid, initWfmo wa ((evs.length : Int))) :: h) 0 0
    (fun c => if c = wid then 1 + (evs.length : Int) else p c)
    (by
      simp only [List.map_cons]
      exact List.nodup_cons.mpr ⟨hkeys, hnd⟩)
    (fun c => by
      dsimp only
      have h11 := hp c
      split <;> omega)
    (by
      dsimp only
      rw [if_pos rfl]
      omega)
    (by
      intro c w hfw
      rw [findW] at hfw
      dsimp only
      by_cases hc : wid = c
      · subst hc
        rw [if_pos rfl] at hfw
        cases hfw
        rw [if_pos rfl, hrw]
        simp only [initWfmo]
        exact ⟨by push_cast; omega, by omega⟩
      · rw [if_neg hc] at hfw
        have h9 := H c w hfw
        refine ⟨?_, h9.2⟩
        rw [if_neg (fun hh => hc hh.symm)]
        exact h9.1)
    (by
      intro c hfn
      rw [findW] at hfn
      dsimp only
      by_cases hc : wid = c
      · rw [if_pos hc] at hfn
        exact nomatch hfn
      · rw [if_neg hc] at hfn
        have h9 := Hd c hfn
        rw [if_neg (fun hh => hc hh.symm)]
        exact h9)
    hrw
  rw [hq] at hrl
  obtain ⟨k, hkle, hkreg, hnotdone, hdone, nd2, H2, Hd2⟩ := hrl
  simp only [WaitForMultipleEvents] at hcall
  rw [hq] at hcall
  obtain ⟨h2a, hh2⟩ : ∃ x, (if wa = true then
      match findW q1.2.1 wid with
      | some w => setW q1.2.1 wid
          { w with EventsLeft := w.EventsLeft - q1.2.2.2.1 }
      | none => q1.2.1
    else q1.2.1) = x := ⟨_, rfl⟩
  rw [hh2] at hcall
  have hf2 : (h2a.map Prod.fst = q1.2.1.map Prod.fst) ∧
      (∀ c, rcOf h2a c = rcOf q1.2.1 c) := by
    rw [← hh2]
    by_cases hwa : wa = true
    · rw [if_pos hwa]
      cases hfm : findW q1.2.1 wid with
      | none => exact ⟨rfl, fun c => rfl⟩
      | some w9 =>
        dsimp only
        exact ⟨keys_setW _ _ _,
          fun c => rcOf_setW_same q1.2.1 wid w9
            { w9 with EventsLeft := w9.EventsLeft - q1.2.2.2.1 } hfm rfl c⟩
    · rw [if_neg hwa]
      exact ⟨rfl, fun c => rfl⟩
  obtain ⟨st, hst⟩ : ∃ x, wfmoWaitStep wa wid ms q1.1 h2a q1.2.2.2.2 = x :=
    ⟨_, rfl⟩
  have hsf := wfmoWaitStep_acct_frame wa wid ms q1.1 h2a q1.2.2.2.2
  rw [hst] at hsf
  obtain ⟨st1, evs2, h3⟩ := st
  rw [hst] at hcall
  dsimp only at hcall hsf
  cases st1 with
  | none => exact nomatch hcall
  | some result =>
    dsimp only at hcall
    injection hcall with h9
    subst h9
    dsimp only
    -- accounting transported to the post-wait heap
    have H2b : ∀ c w, findW q1.2.1 c = some w →
        w.RefCount = (regsOf q1.1 c : Int) +
          (if c = wid then 1 + (evs.length : Int) - (k : Int) else p c) ∧
        0 < w.RefCount := by
      intro c w hfw
      have h9 : w.RefCount = (regsOf q1.1 c : Int) +
          (if c = wid
            then (if c = wid then 1 + (evs.length : Int) else p c) - (k : Int)
            else (if c = wid then 1 + (evs.length : Int) else p c)) ∧
          0 < w.RefCount := H2 c w hfw
      refine ⟨?_, h9.2⟩
      by_cases hc : c = wid
      · simp only [hc, eq_self_iff_true, if_true] at h9 ⊢
        omega
      · simp only [hc, if_false] at h9 ⊢
        exact h9.1
    have Hd2b : ∀ c, findW q1.2.1 c = none →
        regsOf q1.1 c = 0 ∧
        (if c = wid then 1 + (evs.length : Int) - (k : Int) else p c) = 0 := by
      intro c hfn
      have h9 : regsOf q1.1 c = 0 ∧
          (if c = wid
            then (if c = wid then 1 + (evs.length : Int) else p c) - (k : Int)
            else (if c = wid then 1 + (evs.length : Int) else p c)) = 0 :=
        Hd2 c hfn
      refine ⟨h9.1, ?_⟩
      by_cases hc : c = wid
      · simp only [hc, eq_self_iff_true, if_true] at h9 ⊢
        omega
      · simp only [hc, if_false] at h9 ⊢
        exact h9.2
    have hT := acct_transport q1.2.1 h3 (fun c => regsOf q1.1 c)
      (fun c => regsOf evs2 c)
      (fun c => if c = wid then 1 + (evs.length : Int) - (k : Int) else p c)
      (hsf.1.trans hf2.1)
      (fun c => (hsf.2.1 c).trans (hf2.2 c))
      hsf.2.2 nd2 H2b Hd2b
    obtain ⟨nd3, H3, Hd3⟩ := hT
    -- the coordinator still exists before the exit decrement
    obtain ⟨w4, hw4, hw4rc⟩ : ∃ w4, findW h3 wid = some w4 ∧
        w4.RefCount = (regsOf evs2 wid : Int) +
          (1 + (evs.length : Int) - (k : Int)) := by
      cases hfm : findW h3 wid with
      | none =>
        have h9 : regsOf evs2 wid = 0 ∧
            (if wid = wid then 1 + (evs.length : Int) - (k : Int)
              else p wid) = 0 := Hd3 wid hfm
        rw [if_pos rfl] at h9
        exfalso
        omega
      | some w4 =>
        have h9 : w4.RefCount = (regsOf evs2 wid : Int) +
            (if wid = wid then 1 + (evs.length : Int) - (k : Int)
              else p wid) ∧ 0 < w4.RefCount := H3 wid w4 hfm
        rw [if_pos rfl] at h9
        exact ⟨w4, rfl, h9.1⟩
    -- the exit decrement drops exactly the pending share
    have hsr : (1 : Int) + q1.2.2.1 = 1 + (evs.length : Int) - (k : Int) := by
      cases hdn : q1.2.2.2.2 with
      | false =>
        obtain ⟨h8, h9⟩ := hnotdone hdn
        rw [h9, h8]
        push_cast
        ring
      | true =>
        have h9 := hdone hdn
        push_cast at h9
        omega
    rw [hw4]
    dsimp only
    simp only [decRefBy]
    rw [findW_setW_self hw4]
    dsimp only
    have nd4 : ((setW h3 wid { w4 with StillWaiting := false }).map
        Prod.fst).Nodup := by
      rw [keys_setW]
      exact nd3
    unfold RefAcct
    by_cases hz : w4.RefCount = 1 + q1.2.2.1
    · rw [if_pos hz]
      have hz0 : regsOf evs2 wid = 0 := by omega
      refine ⟨⟨nodup_keys_eraseW wid nd4, ?_, ?_, hp⟩, ?_⟩
      · intro c w hfw
        by_cases hc : c = wid
        · rw [hc, findW_eraseW_self nd4] at hfw
          exact nomatch hfw
        · rw [findW_eraseW_ne hc, findW_setW_ne hc] at hfw
          have h9 : w.RefCount = (regsOf evs2 c : Int) +
              (if c = wid then 1 + (evs.length : Int) - (k : Int)
                else p c) ∧ 0 < w.RefCount := H3 c w hfw
          rw [if_neg hc] at h9
          exact h9
      · intro c hfn
        by_cases hc : c = wid
        · exact ⟨by rw [hc]; exact hz0, by rw [hc]; exact hpw⟩
        · rw [findW_eraseW_ne hc, findW_setW_ne hc] at hfn
          have h9 : regsOf evs2 c = 0 ∧
              (if c = wid then 1 + (evs.length : Int) - (k : Int)
                else p c) = 0 := Hd3 c hfn
          rw [if_neg hc] at h9
          exact h9
      · intro w hw
        rw [findW_eraseW_self nd4] at hw
        exact nomatch hw
    · rw [if_neg hz]
      have hge : 1 ≤ regsOf evs2 wid := by omega
      refine ⟨⟨?_, ?_, ?_, hp⟩, ?_⟩
      · rw [keys_setW, keys_setW]
        exact nd3
      · intro c w hfw
        by_cases hc : c = wid
        · rw [hc, findW_setW_self (findW_setW_self hw4)] at hfw
          cases hfw
          constructor
          · rw [hc, hpw]
            dsimp only
            omega
          · dsimp only
            omega
        · rw [findW_setW_ne hc, findW_setW_ne hc] at hfw
          have h9 : w.RefCount = (regsOf evs2 c : Int) +
              (if c = wid then 1 + (evs.length : Int) - (k : Int)
                else p c) ∧ 0 < w.RefCount := H3 c w hfw
          rw [if_neg hc] at h9
          exact h9
      · intro c hfn
        by_cases hc : c = wid
        · rw [hc, findW_setW_self (findW_setW_self hw4)] at hfn
          exact nomatch hfn
        · rw [findW_setW_ne hc, findW_setW_ne hc] at hfn
          have h9 : regsOf evs2 c = 0 ∧
              (if c = wid then 1 + (evs.length : Int) - (k : Int)
                else p c) = 0 := Hd3 c hfn
          rw [if_neg hc] at h9
          exact h9
      · intro w hw
        rw [findW_setW_self (findW_setW_self hw4)] at hw
        cases hw
        dsimp only
        omega

/-- C8: a multi-wait coordinator's reference count starts at `1 + N`
(`initWfmo`), and the reference-count invariant `RefAcct` — every live
coordinator's count equals its outstanding registrations plus its waiter's
pending share and is strictly positive (so each decrement observes a
positive count), and a destroyed coordinator has no registrations and no
pending share left (destruction happens exactly at zero, once) — is
preserved by `SetEvent` (a signaler serving or expiring a registration), by
`ResetEvent` (cleanup), and, with the same pending shares for everyone else,
by a complete `WaitForMultipleEvents` call on a fresh allocation id
(registration with lazy sweeps, the wait, and the exit decrement of
`1 + skipped_refs`): all `1 + N` references are accounted for, and after the
call the coordinator, if it still exists, holds exactly one reference per
registration still pointing at it. -/
theorem refcount_lifecycle :
    (∀ (waitAll : Bool) (n : Int), (initWfmo waitAll n).RefCount = 1 + n) ∧
    (∀ (e : Event) (others : List Event) (h : Heap) (p : WaiterId → Int),
      RefAcct h (e :: others) p →
      RefAcct (SetEvent e h).2.1 ((SetEvent e h).1 :: others) p) ∧
    (∀ (e : Event) (others : List Event) (h : Heap) (p : WaiterId → Int),
      RefAcct h (e :: others) p →
      RefAcct (ResetEvent e h).2 ((ResetEvent e h).1 :: others) p) ∧
    (∀ (evs : List Event) (waitAll : Bool) (ms : Nat) (h : Heap)
      (wid : WaiterId) (p : WaiterId → Int)
      (r : Int × Int × List Event × Heap),
      findW h wid = none → RefAcct h evs p →
      WaitForMultipleEvents evs waitAll ms h wid = some r →
      RefAcct r.2.2.2 r.2.2.1 p ∧
      (∀ w, findW r.2.2.2 wid = some w →
        w.RefCount = (regsOf r.2.2.1 wid : Int))) :=
  ⟨fun _ _ => rfl, setEvent_acct, resetEvent_acct,
    fun evs waitAll ms h wid p r => wfme_acct evs waitAll ms h wid p r⟩

theorem refcount_lifecycle_witness :
    (initWfmo true 3).RefCount = 1 + 3 ∧
    RefAcct [] [CreateEvent false true] (fun _ => 0) ∧
    RefAcct (SetEvent (CreateEvent false true) []).2.1
      [(SetEvent (CreateEvent false true) []).1] (fun _ => 0) ∧
    RefAcct (ResetEvent (CreateEvent false true) []).2
      [(ResetEvent (CreateEvent false true) []).1] (fun _ => 0) ∧
    findW ([] : Heap) 5 = none ∧
    WaitForMultipleEvents [CreateEvent false true] false 0 [] 5 =
      some (0, 0, [⟨true, false, false, []⟩], []) ∧
    RefAcct ([] : Heap) [(⟨true, false, false, []⟩ : Event)]
      (fun _ => 0) := by
  have hAcc : RefAcct [] [CreateEvent false true] (fun _ => 0) := by
    unfold RefAcct
    refine ⟨List.nodup_nil, ?_, ?_, fun c => le_refl 0⟩
    · intro c w hw
      exact nomatch hw
    · intro c hc
      exact ⟨rfl, rfl⟩
  have hcall : WaitForMultipleEvents [CreateEvent false true] false 0 [] 5 =
      some (0, 0, [⟨true, false, false, []⟩], []) := by decide
  refine ⟨refcount_lifecycle.1 true 3, hAcc,
    refcount_lifecycle.2.1 (CreateEvent false true) [] [] (fun _ => 0) hAcc,
    refcount_lifecycle.2.2.1 (CreateEvent false true) [] [] (fun _ => 0)
      hAcc,
    rfl, hcall, ?_⟩
  exact (refcount_lifecycle.2.2.2 [CreateEvent false true] false 0 [] 5
    (fun _ => 0) (0, 0, [⟨true, false, false, []⟩], []) rfl hAcc hcall).1

end PEvents
